import Mathlib

/-!
Verification development for the text-editing core of the `edi` editor.

The buffer is modelled as a `List Char` (the source indexes raw bytes of a
`String`; the editor is ASCII-oriented, so characters and bytes coincide on
the intended inputs).  Each Rust method that mutates `self` becomes a Lean
function returning the updated value.  Rust `f32` timing values are modelled
as exact rationals; the timing constants and deltas of interest are small
integers, which `f32` represents and subtracts exactly.  `usize` arithmetic
that cannot overflow on the inputs of interest is modelled on `Nat`.
-/

/-- Tokens classify runs of the buffer: a maximal run of non-space
non-newline characters (`word`), a maximal run of the space character
(`space`), or a single newline character (`newline`).  Mirrors `enum Token`
in `editor.rs`. -/
inductive Token where
  | word (idx len : Nat)
  | space (idx len : Nat)
  | newline (idx : Nat)
deriving DecidableEq, Repr

/-- Token length, mirroring `Token::len`. -/
def Token.len : Token → Nat
  | .word _ len => len
  | .space _ len => len
  | .newline _ => 1

/-- Token start offset, mirroring `Token::idx`. -/
def Token.idx : Token → Nat
  | .word idx _ => idx
  | .space idx _ => idx
  | .newline idx => idx

/-- A line of the derived line index: its start offset in the buffer and its
word/space tokens.  Mirrors `struct Line` in `editor.rs`. -/
structure Line where
  idx : Nat
  tokens : List Token
deriving DecidableEq, Repr

/-- Mirrors `Line::start`. -/
def Line.start (l : Line) : Nat := l.idx

/-- Mirrors `Line::end`: one past the last token's content, or the start
offset for a line without tokens.  (`end` is a Lean keyword, hence the
primed name.) -/
def Line.end' (l : Line) : Nat :=
  match l.tokens.getLast? with
  | none => l.idx
  | some t => t.idx + t.len

/-- Cursor position, mirroring `struct Pos`: absolute buffer offset, line
index and column within the line. -/
structure Pos where
  idx : Nat
  line : Nat
  col : Nat
deriving DecidableEq, Repr

/-- Mirrors `Pos::next`. -/
def Pos.next (p : Pos) (offset : Nat) : Pos :=
  { p with idx := p.idx + offset, col := p.col + offset }

/-- Mirrors `Pos::prev`: moves left only when the column is large enough. -/
def Pos.prev (p : Pos) (offset : Nat) : Pos :=
  if offset ≤ p.col then { p with idx := p.idx - offset, col := p.col - offset } else p

/-- Mirrors `Pos::new_line`. -/
def Pos.new_line (p : Pos) : Pos :=
  { idx := p.idx + 1, line := p.line + 1, col := 0 }

/-- Mirrors `Token::start_pos`. -/
def Token.start_pos (t : Token) (line : Line) (line_idx : Nat) : Pos :=
  { idx := t.idx, line := line_idx, col := t.idx - line.start }

/-- Mirrors `Token::end_pos`. -/
def Token.end_pos (t : Token) (line : Line) (line_idx : Nat) : Pos :=
  { idx := t.idx + t.len - 1, line := line_idx, col := t.idx - line.start + t.len - 1 }

/-- Length of the run of characters satisfying `p` at the head of the
list.  This captures the scanning loops of `Tokenizer::take_word` and
`Tokenizer::take_space`. -/
def runLen (p : Char → Bool) : List Char → Nat
  | [] => 0
  | c :: rest => if p c then runLen p rest + 1 else 0

/-- The character class consumed by `Tokenizer::take_space` (byte 32). -/
def spaceChar (c : Char) : Bool := c == ' '

/-- The character class consumed by `Tokenizer::take_word` (neither byte 32
nor byte 10). -/
def wordChar (c : Char) : Bool := !(c == ' ') && !(c == '\n')

/-- Fuel-indexed tokenizer scan.  One unit of fuel is spent per emitted
token; since every token consumes at least one character, `cs.length` fuel
suffices.  Mirrors the loop of `Tokenizer::next`: a newline yields a
`newline` token, a space starts a maximal space run, anything else starts a
maximal word run. -/
def tokFuel : Nat → List Char → Nat → List Token
  | 0, _, _ => []
  | _ + 1, [], _ => []
  | fuel + 1, c :: rest, i =>
    if c == '\n' then Token.newline i :: tokFuel fuel rest (i + 1)
    else if c == ' ' then
      let k := runLen spaceChar rest
      Token.space i (k + 1) :: tokFuel fuel (rest.drop k) (i + k + 1)
    else
      let k := runLen wordChar rest
      Token.word i (k + 1) :: tokFuel fuel (rest.drop k) (i + k + 1)

/-- The token stream of the buffer suffix `cs` whose first character sits at
absolute offset `i`: the repeated application of `Tokenizer::next`. -/
def tokenizeFrom (cs : List Char) (i : Nat) : List Token :=
  tokFuel cs.length cs i

/-- Grouping of the token stream into lines, mirroring the loop of
`Editor::tokenize`: word and space tokens are accumulated, a newline token
closes the current line and opens the next at `idx + 1`, and one final line
is always pushed after the stream ends. -/
def buildLines : Nat → List Token → List Token → List Line
  | start_of_line, tokens, [] => [⟨start_of_line, tokens⟩]
  | start_of_line, tokens, t :: rest =>
    match t with
    | Token.newline idx => ⟨start_of_line, tokens⟩ :: buildLines (idx + 1) [] rest
    | _ => buildLines start_of_line (tokens ++ [t]) rest

/-- The full line index of a buffer: `Editor::tokenize` as a function of the
buffer alone. -/
def tokenizeLines (buf : List Char) : List Line :=
  buildLines 0 [] (tokenizeFrom buf 0)

/-- Mirrors `Line::current_word`: the first token whose predicate in the
`skip_while` is false, i.e. the first word token extending strictly past
`idx`. -/
def Line.current_word (l : Line) (idx : Nat) : Option Token :=
  l.tokens.find? fun t =>
    match t with
    | .word s len => idx < s + len
    | _ => false

/-- Mirrors `Line::next_word`: the first word token starting strictly after
`idx`. -/
def Line.next_word (l : Line) (idx : Nat) : Option Token :=
  l.tokens.find? fun t =>
    match t with
    | .word s _ => idx < s
    | _ => false

/-- Mirrors `Line::prev_word`: scanning from the right, the first word token
that ends at or before `idx`. -/
def Line.prev_word (l : Line) (idx : Nat) : Option Token :=
  l.tokens.reverse.find? fun t =>
    match t with
    | .word s len => s + len ≤ idx
    | _ => false

/-- Two-state timer state, mirroring `enum CooldownState` in `cooldown.rs`. -/
inductive CooldownState where
  | Active
  | OnCooldown
deriving DecidableEq, Repr

/-- Mirrors `struct Cooldown`; `f32` durations are modelled as rationals. -/
structure Cooldown where
  state : CooldownState
  cooldown : ℚ
  duration : ℚ
  current : ℚ
deriving DecidableEq, Repr

/-- Mirrors `Cooldown::new`. -/
def Cooldown.new (duration cooldown : ℚ) : Cooldown :=
  { state := CooldownState.Active, cooldown := cooldown, duration := duration, current := 0 }

/-- Mirrors `Cooldown::reset`. -/
def Cooldown.reset (cd : Cooldown) (state : CooldownState) : Cooldown :=
  match state with
  | CooldownState.Active => { cd with state := state, current := cd.duration }
  | CooldownState.OnCooldown => { cd with state := state, current := cd.cooldown }

/-- Mirrors `Cooldown::update`: subtract `delta` while it fits, otherwise
flip to the other state with that state's full time. -/
def Cooldown.update (cd : Cooldown) (delta : ℚ) : Cooldown :=
  match cd.state with
  | CooldownState.Active =>
    if delta < cd.current then { cd with current := cd.current - delta }
    else { cd with current := cd.cooldown, state := CooldownState.OnCooldown }
  | CooldownState.OnCooldown =>
    if delta < cd.current then { cd with current := cd.current - delta }
    else { cd with current := cd.duration, state := CooldownState.Active }

/-- The closed enumeration of normal-mode commands, mirroring
`enum CommandType` in `command.rs`. -/
inductive CommandType where
  | EnterInsert
  | EnterInsertAfter
  | EnterCommand
  | MoveLeft
  | MoveDown
  | MoveRight
  | MoveUp
  | MoveEndOfLine
  | MoveStartOfLine
  | NextWord
  | NextWordEnd
  | PrevWord
  | StartNextLine
  | StartPrevLine
  | AppendLine
  | PrependLine
  | DeleteLine
  | DeleteChar
deriving DecidableEq, Repr

/-- Mirrors `struct Command`: a key sequence and the command it triggers. -/
structure Command where
  input : List Char
  typ : CommandType
deriving DecidableEq, Repr

/-- The fixed normal-mode command table `ALL_COMMANDS` of `command.rs`, in
source order. -/
def ALL_COMMANDS : List Command :=
  [ ⟨"i".toList, CommandType.EnterInsert⟩
  , ⟨"a".toList, CommandType.EnterInsertAfter⟩
  , ⟨":".toList, CommandType.EnterCommand⟩
  , ⟨"h".toList, CommandType.MoveLeft⟩
  , ⟨"j".toList, CommandType.MoveDown⟩
  , ⟨"l".toList, CommandType.MoveRight⟩
  , ⟨"k".toList, CommandType.MoveUp⟩
  , ⟨"$".toList, CommandType.MoveEndOfLine⟩
  , ⟨"0".toList, CommandType.MoveStartOfLine⟩
  , ⟨"w".toList, CommandType.NextWord⟩
  , ⟨"e".toList, CommandType.NextWordEnd⟩
  , ⟨"b".toList, CommandType.PrevWord⟩
  , ⟨"o".toList, CommandType.StartNextLine⟩
  , ⟨"O".toList, CommandType.StartPrevLine⟩
  , ⟨"A".toList, CommandType.AppendLine⟩
  , ⟨"I".toList, CommandType.PrependLine⟩
  , ⟨"dd".toList, CommandType.DeleteLine⟩
  , ⟨"x".toList, CommandType.DeleteChar⟩ ]

/-- A resolved action: repeat count and command, mirroring `struct Action`. -/
structure Action' where
  repeat' : Nat
  cmd : CommandType
deriving DecidableEq, Repr

/-- Result of a table lookup, mirroring `enum CommandMatch` (candidate
references are modelled by value). -/
inductive CommandMatch where
  | PartialMatch (candidates : List Command)
  | FullMatch (cmd : Command)
  | NoMatch
deriving DecidableEq, Repr

/-- Rust's `str::starts_with`: `starts_with s pre` is true when `pre` is a
prefix of `s`. -/
def starts_with : List Char → List Char → Bool
  | _, [] => true
  | [], _ :: _ => false
  | c :: cs, p :: ps => p == c && starts_with cs ps

/-- The scanning loop of `Command::from_input`: an exact match returns
immediately, prefix candidates are collected in order. -/
def from_input_go (input : List Char) : List Command → List Command → CommandMatch
  | [], acc => if acc.isEmpty then CommandMatch.NoMatch else CommandMatch.PartialMatch acc.reverse
  | cmd :: rest, acc =>
    if cmd.input = input then CommandMatch.FullMatch cmd
    else if starts_with cmd.input input then from_input_go input rest (cmd :: acc)
    else from_input_go input rest acc

/-- Mirrors `Command::from_input`. -/
def Command.from_input (input : List Char) : CommandMatch :=
  from_input_go input ALL_COMMANDS []

/-- Rust's `str::parse::<usize>` on a 64-bit target: an optional leading
`+`, then one or more ASCII digits, rejecting overflow past `2^64 - 1`. -/
def parse_usize (s : List Char) : Option Nat :=
  let digits := if s.head? = some '+' then s.tail else s
  if digits = [] then none
  else if digits.all Char.isDigit then
    let v := digits.foldl (fun acc c => acc * 10 + (c.toNat - '0'.toNat)) 0
    if v < 2 ^ 64 then some v else none
  else none

/-- Mirrors `struct InputBuffer`: pending literal, timeout and optional
repeat counter. -/
structure InputBuffer where
  buf : List Char
  cd : Cooldown
  repeat' : Option Nat
deriving DecidableEq, Repr

/-- Mirrors `InputBuffer::new` with its 500ms window and 100ms cooldown. -/
def InputBuffer.new : InputBuffer :=
  { buf := [], cd := Cooldown.new 500 100, repeat' := none }

/-- Mirrors `InputBuffer::reset`. -/
def InputBuffer.reset (ib : InputBuffer) : InputBuffer :=
  { buf := [], cd := ib.cd.reset CooldownState.Active, repeat' := none }

/-- Mirrors `InputBuffer::update`: advance the timer, and clear the pending
literal and counter whenever the timer is not in the `Active` state. -/
def InputBuffer.update (ib : InputBuffer) (delta : ℚ) : InputBuffer :=
  let cd := ib.cd.update delta
  if cd.state ≠ CooldownState.Active then { ib with cd := cd, buf := [], repeat' := none }
  else { ib with cd := cd }

/-- The command-lookup arm of `InputBuffer::check` (the `_` branch of its
match): append the chunk to the pending literal and dispatch on the table
lookup. -/
def InputBuffer.check_cmd (ib : InputBuffer) (input : List Char) : Option Action' × InputBuffer :=
  let buf := ib.buf ++ input
  match Command.from_input buf with
  | CommandMatch.PartialMatch _ =>
    (none, { ib with buf := buf, cd := ib.cd.reset CooldownState.Active })
  | CommandMatch.FullMatch cmd =>
    (some { repeat' := ib.repeat'.getD 1, cmd := cmd.typ }, InputBuffer.reset { ib with buf := buf })
  | CommandMatch.NoMatch => (none, InputBuffer.reset { ib with buf := buf })

/-- Fuel-indexed floor of the base-10 logarithm: `log10Fuel fuel m` divides
by 10 until the value drops below 10.  `m` units of fuel always suffice. -/
def log10Fuel : Nat → Nat → Nat
  | 0, _ => 0
  | fuel + 1, m => if m < 10 then 0 else log10Fuel fuel (m / 10) + 1

/-- Floor of the base-10 logarithm (`⌊log10 m⌋` for `m ≥ 1`); in the
source's exponent pipeline this is the `.log10().abs().floor() as u32` step
applied to the already-converted `f32` argument (which is an integer), with
`abs` the identity since the argument is at least 1. -/
def log10f (m : Nat) : Nat := log10Fuel m m

/-- Fuel-indexed floor of the base-2 logarithm: divide by 2 until the value
drops below 2.  `m` units of fuel always suffice. -/
def log2Fuel : Nat → Nat → Nat
  | 0, _ => 0
  | fuel + 1, m => if m < 2 then 0 else log2Fuel fuel (m / 2) + 1

/-- Floor of the base-2 logarithm. -/
def log2f (m : Nat) : Nat := log2Fuel m m

/-- Rust's `m as f32` on a natural number: IEEE 754 round-to-nearest-even
to the 24-bit-significand grid.  Values below `2^24` are exact; larger
values round to the nearest multiple of `2^(bitlength - 24)` with ties to
the even significand (a carry into `2^24` lands back on the grid).  Every
value below `2^64` is far inside `f32` range, and the result is again an
integer, so the conversion stays on `Nat`. -/
def toF32 (m : Nat) : Nat :=
  if m < 2 ^ 24 then m
  else
    let e := log2f m - 23
    let q := m / 2 ^ e
    let r := m % 2 ^ e
    if 2 ^ e < 2 * r ∨ (2 * r = 2 ^ e ∧ q % 2 = 1) then (q + 1) * 2 ^ e
    else q * 2 ^ e

/-- Mirrors `InputBuffer::check`.  A chunk that parses as digits and is
nonzero (or arrives while a count accumulates) folds into the repeat
counter; the source's scale `10usize.pow((m as f32).log10().abs().floor()
as u32 + 1)` is modelled as `10 ^ (log10f (toF32 m) + 1)` — the argument is
first rounded to the `f32` grid (so e.g. 99999999 becomes 10^8 and scales
by `10^9`), then the exact floor-log10 is taken.  The `usize` products wrap
modulo `2^64` as release-profile Rust arithmetic does; the claim theorems
are stated on the overflow-free domain, where debug and release profiles
agree.  Other chunks go to command lookup. -/
def InputBuffer.check (ib : InputBuffer) (input : List Char) : Option Action' × InputBuffer :=
  match parse_usize input with
  | some multiplier =>
    if 0 < multiplier ∨ ib.repeat'.isSome then
      let current_multiplier := ib.repeat'.getD 0
      let next_multiplier :=
        if multiplier = 0 then 10 else 10 ^ (log10f (toF32 multiplier) + 1) % 2 ^ 64
      let ib' := { ib with
        repeat' := some ((current_multiplier * next_multiplier + multiplier) % 2 ^ 64),
        cd := ib.cd.reset CooldownState.Active }
      (none, ib')
    else ib.check_cmd input
  | none => ib.check_cmd input

/-- Ex-command kinds, mirroring `enum ExCmdType` in `excmd.rs`. -/
inductive ExCmdType where
  | Quit
  | CancelQuit
deriving DecidableEq, Repr

/-- Result of executing an ex-command, mirroring `enum ExCmdResult`. -/
inductive ExCmdResult where
  | Command (typ : ExCmdType)
  | UnknownCommand (text : List Char)
  | Quit (save : Bool)
deriving DecidableEq, Repr

/-- An ex-command table entry, mirroring `struct ExCmd`. -/
structure ExCmd where
  input : List Char
  typ : ExCmdType
deriving DecidableEq, Repr

/-- The fixed ex-command table `ALL_COMMANDS` of `excmd.rs`. -/
def ALL_EX_COMMANDS : List ExCmd :=
  [ ⟨":q".toList, ExCmdType.Quit⟩
  , ⟨":cq".toList, ExCmdType.CancelQuit⟩ ]

/-- Mirrors `struct CmdBuffer`. -/
structure CmdBuffer where
  buffer : List Char
deriving DecidableEq, Repr

/-- Mirrors `CmdBuffer::new`. -/
def CmdBuffer.new : CmdBuffer := { buffer := [] }

/-- Mirrors `CmdBuffer::input`. -/
def CmdBuffer.input (cb : CmdBuffer) (input : List Char) : CmdBuffer :=
  { cb with buffer := cb.buffer ++ input }

/-- Mirrors `CmdBuffer::reset`. -/
def CmdBuffer.reset (cb : CmdBuffer) : CmdBuffer := { cb with buffer := [] }

/-- Mirrors `CmdBuffer::delete_char`: drop the final character, if any. -/
def CmdBuffer.delete_char (cb : CmdBuffer) : CmdBuffer :=
  if cb.buffer.isEmpty then cb else { cb with buffer := cb.buffer.dropLast }

/-- Mirrors `CmdBuffer::execute`: exact lookup of the accumulated text, with
the buffer reset afterwards in every case. -/
def CmdBuffer.execute (cb : CmdBuffer) : ExCmdResult × CmdBuffer :=
  let cmd := (ALL_EX_COMMANDS.find? fun c => c.input = cb.buffer).map fun c => c.typ
  let result :=
    match cmd with
    | some ExCmdType.Quit => ExCmdResult.Quit true
    | some ExCmdType.CancelQuit => ExCmdResult.Quit false
    | none => ExCmdResult.UnknownCommand cb.buffer
  (result, cb.reset)

/-- Editor modes, mirroring `enum Mode` in `editor.rs`. -/
inductive Mode where
  | Normal
  | Insert
  | Command
deriving DecidableEq, Repr

/-- The editor: mode, text buffer, derived line index, cursor, and the two
input-accumulation buffers.  Mirrors `struct Editor`. -/
structure Editor where
  mode : Mode
  buffer : List Char
  lines : List Line
  cursor : Pos
  input_buffer : InputBuffer
  command_buffer : CmdBuffer
deriving DecidableEq, Repr

/-- Mirrors `Editor::new`: empty buffer, one empty line, cursor at the
origin. -/
def Editor.new : Editor :=
  { mode := Mode.Normal
  , buffer := []
  , lines := [⟨0, []⟩]
  , cursor := ⟨0, 0, 0⟩
  , input_buffer := InputBuffer.new
  , command_buffer := CmdBuffer.new }

/-- The current line, `self.lines[self.cursor.line]`.  The Rust indexing
panics out of bounds; the default is irrelevant under the in-bounds
hypotheses carried by every theorem that uses it. -/
def Editor.line (e : Editor) : Line := e.lines.getD e.cursor.line ⟨0, []⟩

/-- Mirrors `Editor::line_len`: the summed length of the line's word
slices.  Each slice `&buffer[start..start+len]` has length `len`. -/
def Editor.line_len (_e : Editor) (l : Line) : Nat := (l.tokens.map Token.len).sum

/-- Mirrors `Editor::next_line`. -/
def Editor.next_line (e : Editor) : Option Line :=
  if e.cursor.line + 1 < e.lines.length then some (e.lines.getD (e.cursor.line + 1) ⟨0, []⟩)
  else none

/-- Mirrors `Editor::prev_line`. -/
def Editor.prev_line (e : Editor) : Option Line :=
  if 0 < e.cursor.line then some (e.lines.getD (e.cursor.line - 1) ⟨0, []⟩) else none

/-- Mirrors `Editor::tokenize`: rebuild the whole line index from the
buffer. -/
def Editor.tokenize (e : Editor) : Editor := { e with lines := tokenizeLines e.buffer }

/-- Splice `s` into `buf` at offset `idx`: Rust's `String::insert_str` (and
`String::insert` for a single character). -/
def strInsertAt (buf : List Char) (idx : Nat) (s : List Char) : List Char :=
  buf.take idx ++ s ++ buf.drop idx

/-- Mirrors `Editor::insert`: splice at the cursor, advance the cursor by
the text length, retokenize. -/
def Editor.insert (e : Editor) (input : List Char) : Editor :=
  Editor.tokenize
    { e with
      buffer := strInsertAt e.buffer e.cursor.idx input,
      cursor := e.cursor.next input.length }

/-- Mirrors `Editor::new_line`: insert a newline at the cursor and move to
column 0 of the next line. -/
def Editor.new_line (e : Editor) : Editor :=
  Editor.tokenize
    { e with
      buffer := strInsertAt e.buffer e.cursor.idx ['\n'],
      cursor := e.cursor.new_line }

/-- Mirrors `Editor::delete_char` ('x'): remove the character under the
cursor when the cursor is inside the current line's content. -/
def Editor.delete_char (e : Editor) : Editor :=
  let line_len := e.line_len e.line
  if e.cursor.idx < e.buffer.length ∧ e.cursor.col < line_len then
    Editor.tokenize { e with buffer := e.buffer.eraseIdx e.cursor.idx }
  else e

/-- Mirrors `Editor::delete` (backspace): remove the character before the
cursor; step the column back, or fall to the end of the previous line when
the column is 0. -/
def Editor.delete (e : Editor) : Editor :=
  if 0 < e.cursor.idx ∧ e.cursor.idx ≤ e.buffer.length then
    let idx' := e.cursor.idx - 1
    let cursor :=
      if 0 < e.cursor.col then { e.cursor with idx := idx', col := e.cursor.col - 1 }
      else if 0 < e.cursor.line then
        { idx := idx'
        , line := e.cursor.line - 1
        , col := e.line_len (e.lines.getD (e.cursor.line - 1) ⟨0, []⟩) }
      else { e.cursor with idx := idx' }
    Editor.tokenize { e with buffer := e.buffer.eraseIdx idx', cursor := cursor }
  else e

/-- The deletion loop of `Editor::delete_line`: `n` removals at the fixed
offset `q`, each skipped when `q` is out of range. -/
def removeTimes : Nat → Nat → List Char → List Char
  | 0, _, buf => buf
  | n + 1, q, buf => removeTimes n q (if q < buf.length then buf.eraseIdx q else buf)

/-- Mirrors `Editor::delete_line` ("dd"): remove `end - start + 1`
characters at `max(start, 1) - 1`, then relocate the cursor — clamping the
column to the following line's length when one exists, otherwise moving up
one line with `idx` and `col` zeroed. -/
def Editor.delete_line (e : Editor) : Editor :=
  let start_idx := e.line.start
  let len := e.line.end' - start_idx + 1
  let buffer := removeTimes len (max start_idx 1 - 1) e.buffer
  let cursor :=
    match e.next_line with
    | some next_line =>
      { e.cursor with col := min (next_line.end' - next_line.start) e.cursor.col }
    | none =>
      { idx := 0
      , line := if 0 < e.cursor.line then e.cursor.line - 1 else e.cursor.line
      , col := 0 }
  Editor.tokenize { e with buffer := buffer, cursor := cursor }

/-- Mirrors `Editor::move_left`. -/
def Editor.move_left (e : Editor) : Editor := { e with cursor := e.cursor.prev 1 }

/-- Mirrors `Editor::move_right`. -/
def Editor.move_right (e : Editor) : Editor :=
  if e.cursor.col < e.line_len e.line then { e with cursor := e.cursor.next 1 } else e

/-- Mirrors `Editor::move_start_of_line`. -/
def Editor.move_start_of_line (e : Editor) : Editor :=
  { e with cursor := { e.cursor with col := 0, idx := e.line.start } }

/-- Mirrors `Editor::move_end_of_line`. -/
def Editor.move_end_of_line (e : Editor) : Editor :=
  let current_line := e.line
  { e with cursor := { e.cursor with
      col := current_line.end' - current_line.start,
      idx := current_line.end' } }

/-- Mirrors `Editor::move_down`: clamp the column to the destination line's
length. -/
def Editor.move_down (e : Editor) : Editor :=
  if e.cursor.line + 1 < e.lines.length then
    let line := e.lines.getD (e.cursor.line + 1) ⟨0, []⟩
    let column := min e.cursor.col (e.line_len line)
    { e with cursor := { idx := line.start + column, line := e.cursor.line + 1, col := column } }
  else e

/-- Mirrors `Editor::move_up`. -/
def Editor.move_up (e : Editor) : Editor :=
  if 0 < e.cursor.line then
    let line := e.lines.getD (e.cursor.line - 1) ⟨0, []⟩
    let column := min e.cursor.col (e.line_len line)
    { e with cursor := { idx := line.start + column, line := e.cursor.line - 1, col := column } }
  else e

/-- Mirrors `Editor::next_word_end` ('e'): stay on the current word when the
cursor is not at its last character, otherwise the next word on the line,
otherwise the first token of the next line, otherwise `move_down`. -/
def Editor.next_word_end (e : Editor) : Editor :=
  let line := e.lines.getD e.cursor.line ⟨0, []⟩
  let current :=
    match line.current_word e.cursor.idx with
    | some t => if e.cursor.idx + 1 < t.idx + t.len then some t else none
    | none => none
  let line_next_word :=
    match current with
    | some t => some t
    | none => line.next_word e.cursor.idx
  let next :=
    match line_next_word.map fun t => t.end_pos line e.cursor.line with
    | some p => some p
    | none =>
      match e.next_line with
      | some l => l.tokens.head?.map fun t => t.end_pos l (e.cursor.line + 1)
      | none => none
  match next with
  | some p => { e with cursor := p }
  | none => e.move_down

/-- Mirrors `Editor::next_word` ('w'). -/
def Editor.next_word (e : Editor) : Editor :=
  let line := e.lines.getD e.cursor.line ⟨0, []⟩
  let next :=
    match (line.next_word e.cursor.idx).map fun t => t.start_pos line e.cursor.line with
    | some p => some p
    | none =>
      match e.next_line with
      | some l => l.tokens.head?.map fun t => t.start_pos l (e.cursor.line + 1)
      | none => none
  match next with
  | some p => { e with cursor := p }
  | none => e.move_down

/-- Mirrors `Editor::prev_word` ('b'): the current word when the cursor is
past its start, otherwise the previous word on the line, otherwise the last
token of the previous line, otherwise `move_up`. -/
def Editor.prev_word (e : Editor) : Editor :=
  let line := e.lines.getD e.cursor.line ⟨0, []⟩
  let current :=
    match line.current_word e.cursor.idx with
    | some t => if t.idx < e.cursor.idx then some t else none
    | none => none
  let line_prev_word :=
    match current with
    | some t => some t
    | none => line.prev_word e.cursor.idx
  let next :=
    match line_prev_word.map fun t => t.start_pos line e.cursor.line with
    | some p => some p
    | none =>
      match e.prev_line with
      | some l => l.tokens.getLast?.map fun t => t.start_pos l (e.cursor.line - 1)
      | none => none
  match next with
  | some p => { e with cursor := p }
  | none => e.move_up

/-- Mirrors `Editor::exit_insert`. -/
def Editor.exit_insert (e : Editor) : Editor :=
  if e.mode = Mode.Insert then { e with mode := Mode.Normal } else e

/-- Mirrors `Editor::enter_insert`. -/
def Editor.enter_insert (e : Editor) : Editor :=
  if e.mode = Mode.Normal then { e with mode := Mode.Insert } else e

/-- Mirrors `Editor::enter_command`: unconditionally switch to Command mode
and seed the ex-command buffer with ":". -/
def Editor.enter_command (e : Editor) : Editor :=
  { e with mode := Mode.Command, command_buffer := e.command_buffer.input [':'] }

/-- Mirrors `Editor::exit_command`. -/
def Editor.exit_command (e : Editor) : Editor :=
  if e.mode = Mode.Command then
    { e with mode := Mode.Normal, command_buffer := e.command_buffer.reset }
  else e

/-- Mirrors `Editor::command_delete_char`. -/
def Editor.command_delete_char (e : Editor) : Editor :=
  if e.mode = Mode.Command then { e with command_buffer := e.command_buffer.delete_char } else e

/-- Mirrors `Editor::command_execute`: run the ex-command buffer and return
the result; the `Command(cmd)` arm of the source match is an empty TODO, so
nothing else changes — in particular the mode is left as it was. -/
def Editor.command_execute (e : Editor) : ExCmdResult × Editor :=
  let (result, cb) := e.command_buffer.execute
  (result, { e with command_buffer := cb })

/-- Mirrors `Editor::enter_insert_after` ('a'). -/
def Editor.enter_insert_after (e : Editor) : Editor :=
  if e.mode = Mode.Normal then
    let e' :=
      if e.cursor.col < e.line_len e.line then { e with cursor := e.cursor.next 1 } else e
    { e' with mode := Mode.Insert }
  else e

/-- Mirrors `Editor::start_prev_line` ('O'). -/
def Editor.start_prev_line (e : Editor) : Editor :=
  let line_start := e.line.start
  Editor.enter_insert (Editor.tokenize
    { e with
      buffer := strInsertAt e.buffer line_start ['\n'],
      cursor := { e.cursor with col := 0, idx := line_start } })

/-- Mirrors `Editor::start_next_line` ('o'). -/
def Editor.start_next_line (e : Editor) : Editor :=
  let line_end := e.line.end'
  Editor.enter_insert (Editor.tokenize
    { e with
      buffer := strInsertAt e.buffer line_end ['\n'],
      cursor := { idx := line_end + 1, line := e.cursor.line + 1, col := 0 } })

/-- Mirrors `Editor::append_line` ('A'). -/
def Editor.append_line (e : Editor) : Editor :=
  Editor.enter_insert e.move_end_of_line

/-- Mirrors `Editor::prepend_line` ('I'). -/
def Editor.prepend_line (e : Editor) : Editor :=
  Editor.enter_insert e.move_start_of_line

/-- Mirrors `Editor::handle_command`. -/
def Editor.handle_command (e : Editor) (input : List Char) : Editor :=
  { e with command_buffer := e.command_buffer.input input }

/-- The editor operation bound to each command type in the dispatch table of
`Editor::handle_normal`. -/
def CommandType.action : CommandType → Editor → Editor
  | CommandType.EnterInsert => Editor.enter_insert
  | CommandType.EnterInsertAfter => Editor.enter_insert_after
  | CommandType.EnterCommand => Editor.enter_command
  | CommandType.MoveLeft => Editor.move_left
  | CommandType.MoveDown => Editor.move_down
  | CommandType.MoveRight => Editor.move_right
  | CommandType.MoveUp => Editor.move_up
  | CommandType.MoveEndOfLine => Editor.move_end_of_line
  | CommandType.MoveStartOfLine => Editor.move_start_of_line
  | CommandType.NextWord => Editor.next_word
  | CommandType.NextWordEnd => Editor.next_word_end
  | CommandType.PrevWord => Editor.prev_word
  | CommandType.StartNextLine => Editor.start_next_line
  | CommandType.StartPrevLine => Editor.start_prev_line
  | CommandType.AppendLine => Editor.append_line
  | CommandType.PrependLine => Editor.prepend_line
  | CommandType.DeleteLine => Editor.delete_line
  | CommandType.DeleteChar => Editor.delete_char

/-- The repeat loop `for _ in 0..cmd.repeat { action(self) }`. -/
def applyN (f : Editor → Editor) : Nat → Editor → Editor
  | 0, e => e
  | n + 1, e => applyN f n (f e)

/-- Mirrors `Editor::handle_normal`: route the chunk through the command
recognizer and, when an action fires, run it `repeat` times; the returned
flag says whether a command fired. -/
def Editor.handle_normal (e : Editor) (input : List Char) : Editor × Bool :=
  let (action, ib) := e.input_buffer.check input
  let e' := { e with input_buffer := ib }
  match action with
  | some a => (applyN a.cmd.action a.repeat' e', true)
  | none => (e', false)

/-- Mirrors `Editor::update`. -/
def Editor.update (e : Editor) (delta : ℚ) : Editor :=
  { e with input_buffer := e.input_buffer.update delta }

/-- Join a list of line contents with single newline separators (the shape
`seg₀ ++ '\n' ++ seg₁ ++ ...`). -/
def joinNL : List (List Char) → List Char
  | [] => []
  | [s] => s
  | s :: rest => s ++ '\n' :: joinNL rest

/-- The text of one line as the renderer's `WordIter` produces it: the
concatenation of the buffer slices of its tokens. -/
def Editor.lineText (e : Editor) (l : Line) : List Char :=
  (l.tokens.map fun t => (e.buffer.drop t.idx).take t.len).flatten

/-- The renderer-visible reconstruction of the buffer: every line's token
texts concatenated, lines joined with single newlines (the `join` helper of
the source's tests). -/
def Editor.joined (e : Editor) : List Char :=
  joinNL (e.lines.map e.lineText)

/-- The edit operations quantified over by the tokenization round-trip
property. -/
inductive EditOp where
  | ins (text : List Char)
  | nl
  | del
  | delChar
deriving DecidableEq, Repr

/-- Apply one edit operation. -/
def Editor.applyEdit (e : Editor) : EditOp → Editor
  | EditOp.ins t => e.insert t
  | EditOp.nl => e.new_line
  | EditOp.del => e.delete
  | EditOp.delChar => e.delete_char

/-- Apply a sequence of edit operations in order. -/
def Editor.applyEdits (e : Editor) : List EditOp → Editor
  | [] => e
  | op :: ops => (e.applyEdit op).applyEdits ops

/-- The buffer split at its newline characters: the canonical list of line
contents (always nonempty; the newline separators belong to no segment). -/
def linesOf : List Char → List (List Char)
  | [] => [[]]
  | c :: rest =>
    if c = '\n' then [] :: linesOf rest
    else
      match linesOf rest with
      | [] => [[c]]
      | l :: ls => (c :: l) :: ls

/-- Total buffer footprint of a list of segments: each segment's length plus
one separating newline. -/
def segWeight (segs : List (List Char)) : Nat :=
  (segs.map fun s => s.length + 1).sum

/-- Buffer offset at which segment `k` starts. -/
def segStart (segs : List (List Char)) (k : Nat) : Nat :=
  segWeight (segs.take k)

/-- The tokens `ts` tile the half-open interval `[a, b)`: each token starts
where the previous one ended, every token is nonempty, and the last ends at
`b`. -/
def TokensTile : Nat → Nat → List Token → Prop
  | a, b, [] => a = b
  | a, b, t :: ts => t.idx = a ∧ 1 ≤ t.len ∧ TokensTile (a + t.len) b ts

/-- The line list `ls` realizes the segments `segs` laid out from offset
`b`: line `k` starts at the segment's offset and its tokens tile exactly the
segment's extent. -/
def LinesFit : Nat → List (List Char) → List Line → Prop
  | _, [], [] => True
  | b, seg :: segs, l :: ls =>
    l.idx = b ∧ TokensTile b (b + seg.length) l.tokens ∧ LinesFit (b + seg.length + 1) segs ls
  | _, _, _ => False

/-- Structural well-formedness: the line index is the tokenization of the
buffer.  Every editor operation that touches the buffer re-establishes this
by construction. -/
def Editor.Wf (e : Editor) : Prop := e.lines = tokenizeLines e.buffer

/-- The cursor invariant stated by the specification:
`lines[line].start + col == idx` and `lines[line].start <= idx <=
lines[line].end()` (with the line index in bounds). -/
def Editor.CursorInv (e : Editor) : Prop :=
  e.cursor.line < e.lines.length ∧
  (e.lines.getD e.cursor.line ⟨0, []⟩).start + e.cursor.col = e.cursor.idx ∧
  (e.lines.getD e.cursor.line ⟨0, []⟩).start ≤ e.cursor.idx ∧
  e.cursor.idx ≤ (e.lines.getD e.cursor.line ⟨0, []⟩).end'

/-- The reachable-state invariant: structural well-formedness together with
the cursor invariant. -/
def Editor.Inv (e : Editor) : Prop := e.Wf ∧ e.CursorInv

instance (e : Editor) : Decidable e.Wf :=
  inferInstanceAs (Decidable (e.lines = tokenizeLines e.buffer))

instance (e : Editor) : Decidable e.CursorInv :=
  inferInstanceAs (Decidable (_ ∧ _ ∧ _ ∧ _))

instance (e : Editor) : Decidable e.Inv :=
  inferInstanceAs (Decidable (_ ∧ _))

/-- Predicate: the segment contains no newline character. -/
def NoNL (s : List Char) : Prop := ∀ c ∈ s, c ≠ '\n'

/-- The cursor invariant expressed over the canonical segment decomposition
of a buffer: the line index is in range, the absolute offset is the line's
start plus the column, and the column is within the line. -/
def SegsInv (segs : List (List Char)) (p : Pos) : Prop :=
  p.line < segs.length ∧ p.idx = segStart segs p.line + p.col ∧
    p.col ≤ (segs.getD p.line []).length

/-- Modelled from the spec: the host event loop (absent from the sources,
which only ship an unrelated rendering demo in `main.rs`) delivers either a
text chunk or a discrete key, routed by the current mode — Normal text goes
through the command recognizer, Insert text is applied to the buffer
(Enter inserting a line break), Command text accumulates in the ex-command
buffer, Escape leaves Insert/Command mode and Enter dispatches the
ex-command. -/
inductive Event where
  | text (chunk : List Char)
  | escape
  | enter
deriving DecidableEq, Repr

/-- Modelled from the spec: mode-tagged dispatch of one host event into the
editor core (§2 and §6 of the specification). -/
def Editor.dispatch (e : Editor) : Event → Editor
  | Event.text chunk =>
    match e.mode with
    | Mode.Normal => (e.handle_normal chunk).1
    | Mode.Insert => e.insert chunk
    | Mode.Command => e.handle_command chunk
  | Event.escape =>
    match e.mode with
    | Mode.Normal => e
    | Mode.Insert => e.exit_insert
    | Mode.Command => e.exit_command
  | Event.enter =>
    match e.mode with
    | Mode.Normal => e
    | Mode.Insert => e.new_line
    | Mode.Command => (e.command_execute).2

/-! ## General lemmas about the command recognizer and timers -/

theorem InputBuffer.update_cd (ib : InputBuffer) (delta : ℚ) :
    (ib.update delta).cd = ib.cd.update delta := by
  unfold InputBuffer.update
  dsimp only
  split <;> rfl

theorem starts_with_append (pre t : List Char) : starts_with (pre ++ t) pre = true := by
  induction pre with
  | nil => cases t <;> rfl
  | cons c cs ih => simpa [starts_with] using ih

theorem starts_with_exists {s pre : List Char} (h : starts_with s pre = true) :
    ∃ t, s = pre ++ t := by
  induction pre generalizing s with
  | nil => exact ⟨s, rfl⟩
  | cons p ps ih =>
    cases s with
    | nil => simp [starts_with] at h
    | cons c cs =>
      simp only [starts_with, Bool.and_eq_true, beq_iff_eq] at h
      obtain ⟨rfl, h2⟩ := h
      obtain ⟨t, rfl⟩ := ih h2
      exact ⟨t, rfl⟩

theorem from_input_go_full {input : List Char} :
    ∀ (cmds acc : List Command), (∃ c ∈ cmds, c.input = input) →
      ∃ c, c ∈ cmds ∧ c.input = input ∧
        from_input_go input cmds acc = CommandMatch.FullMatch c := by
  intro cmds
  induction cmds with
  | nil => intro acc h; simp at h
  | cons c rest ih =>
    intro acc h
    by_cases hc : c.input = input
    · exact ⟨c, List.mem_cons_self c rest, hc, by simp [from_input_go, hc]⟩
    · have hrest : ∃ d ∈ rest, d.input = input := by
        obtain ⟨d, hd, hdi⟩ := h
        rcases List.mem_cons.mp hd with rfl | hmem
        · exact absurd hdi hc
        · exact ⟨d, hmem, hdi⟩
      unfold from_input_go
      simp only [hc, if_false]
      split
      · obtain ⟨d, hd, hdi, heq⟩ := ih (c :: acc) hrest
        exact ⟨d, List.mem_cons_of_mem c hd, hdi, heq⟩
      · obtain ⟨d, hd, hdi, heq⟩ := ih acc hrest
        exact ⟨d, List.mem_cons_of_mem c hd, hdi, heq⟩

theorem from_input_go_partial {input : List Char} :
    ∀ (cmds acc : List Command), (∀ c ∈ cmds, c.input ≠ input) →
      ((∃ c ∈ cmds, starts_with c.input input = true) ∨ acc ≠ []) →
      ∃ cs, from_input_go input cmds acc = CommandMatch.PartialMatch cs := by
  intro cmds
  induction cmds with
  | nil =>
    intro acc hne h
    rcases h with h | h
    · simp at h
    · exact ⟨acc.reverse, by simp [from_input_go, h]⟩
  | cons c rest ih =>
    intro acc hne h
    have hc : c.input ≠ input := hne c (List.mem_cons_self c rest)
    have hne' : ∀ d ∈ rest, d.input ≠ input := fun d hd => hne d (List.mem_cons_of_mem c hd)
    unfold from_input_go
    simp only [hc, if_false]
    by_cases hsw : starts_with c.input input = true
    · simp only [hsw, if_true]
      exact ih (c :: acc) hne' (Or.inr (by simp))
    · simp only [hsw, if_false]
      refine ih acc hne' ?_
      rcases h with ⟨d, hd, hds⟩ | h
      · rcases List.mem_cons.mp hd with rfl | hmem
        · exact absurd hds hsw
        · exact Or.inl ⟨d, hmem, hds⟩
      · exact Or.inr h

theorem from_input_go_nomatch {input : List Char} :
    ∀ (cmds : List Command), (∀ c ∈ cmds, starts_with c.input input = false) →
      from_input_go input cmds [] = CommandMatch.NoMatch := by
  intro cmds
  induction cmds with
  | nil => intro _; rfl
  | cons c rest ih =>
    intro h
    have hc := h c (List.mem_cons_self c rest)
    have hcne : c.input ≠ input := by
      intro he
      rw [he] at hc
      have : starts_with input input = true := by
        simpa using starts_with_append input []
      rw [this] at hc
      simp at hc
    unfold from_input_go
    simp only [hcne, if_false, hc]
    exact ih fun d hd => h d (List.mem_cons_of_mem c hd)

/-- C10: from the `OnCooldown` state, an `update` whose delta covers the
remaining time flips the timer back to `Active` with the full duration
restored, with no `reset` call — both for a bare `Cooldown` and for the
command recognizer's own timer through `InputBuffer::update`. -/
theorem C10_cooldown_cycles :
    (∀ (cd : Cooldown) (delta : ℚ), cd.state = CooldownState.OnCooldown →
      cd.current ≤ delta →
      (cd.update delta).state = CooldownState.Active ∧
        (cd.update delta).current = cd.duration) ∧
    (∀ (ib : InputBuffer) (delta : ℚ), ib.cd.state = CooldownState.OnCooldown →
      ib.cd.current ≤ delta →
      ((ib.update delta).cd.state = CooldownState.Active ∧
        (ib.update delta).cd.current = ib.cd.duration)) := by
  have base : ∀ (cd : Cooldown) (delta : ℚ), cd.state = CooldownState.OnCooldown →
      cd.current ≤ delta →
      (cd.update delta).state = CooldownState.Active ∧
        (cd.update delta).current = cd.duration := by
    intro cd delta hs hle
    unfold Cooldown.update
    rw [hs]
    simp [not_lt.mpr hle]
  exact ⟨base, fun ib delta hs hle => by
    rw [InputBuffer.update_cd]
    exact base ib.cd delta hs hle⟩

/-- Witness for C10 at a concrete timer: remaining 50, delta 60. -/
theorem C10_witness :
    ((Cooldown.mk CooldownState.OnCooldown 100 500 50).update 60).state = CooldownState.Active ∧
      ((Cooldown.mk CooldownState.OnCooldown 100 500 50).update 60).current = 500 :=
  C10_cooldown_cycles.1 (Cooldown.mk CooldownState.OnCooldown 100 500 50) 60 rfl (by decide)

/-- C6: whenever an `update` leaves the recognizer's timer in a non-`Active`
state, the pending literal and the repeat counter are cleared by that same
`update`; consequently "d", an update past the 500ms window, then "d" yields
no action, while "d", a 100ms update, then "d" yields the `DeleteLine`
action. -/
theorem C6_timeout_abandons_pending :
    (∀ (ib : InputBuffer) (delta : ℚ), (ib.update delta).cd.state ≠ CooldownState.Active →
      (ib.update delta).buf = [] ∧ (ib.update delta).repeat' = none) ∧
    ((((InputBuffer.new.check "d".toList).2.update 600).check "d".toList).1 = none) ∧
    ((((InputBuffer.new.check "d".toList).2.update 100).check "d".toList).1 =
      some { repeat' := 1, cmd := CommandType.DeleteLine }) := by
  refine ⟨?_, by decide, by decide⟩
  intro ib delta h
  rw [InputBuffer.update_cd] at h
  unfold InputBuffer.update
  dsimp only
  rw [if_pos h]
  exact ⟨rfl, rfl⟩

/-- Witness for C6's clearing statement: a fresh recognizer whose window is
already exhausted by a 600ms update. -/
theorem C6_witness :
    ((InputBuffer.new.check "d".toList).2.update 600).buf = [] ∧
      ((InputBuffer.new.check "d".toList).2.update 600).repeat' = none :=
  C6_timeout_abandons_pending.1 (InputBuffer.new.check "d".toList).2 600 (by decide)

/-- C8: executing the ex-command buffer yields `Quit(true)` exactly on the
text ":q", an `UnknownCommand` carrying the literal text on any text
matching no table entry, and always leaves the buffer empty. -/
theorem C8_execute_lookup_and_reset :
    (∀ cb : CmdBuffer, cb.buffer = ":q".toList → cb.execute.1 = ExCmdResult.Quit true) ∧
    (∀ cb : CmdBuffer, cb.buffer ≠ ":q".toList → cb.buffer ≠ ":cq".toList →
      cb.execute.1 = ExCmdResult.UnknownCommand cb.buffer) ∧
    (∀ cb : CmdBuffer, cb.execute.2.buffer = []) := by
  refine ⟨?_, ?_, fun cb => rfl⟩
  · intro cb h
    obtain ⟨b⟩ := cb
    simp only at h
    subst h
    rfl
  · intro cb h1 h2
    obtain ⟨b⟩ := cb
    simp only at h1 h2
    have hf : (ALL_EX_COMMANDS.find? fun c => c.input = b) = none := by
      rw [List.find?_eq_none]
      intro c hc
      fin_cases hc
      · simpa using Ne.symm h1
      · simpa using Ne.symm h2
    unfold CmdBuffer.execute
    rw [hf]
    rfl

/-- Witness for C8: ":q" quits, ":x" is reported back literally, and both
leave the buffer empty. -/
theorem C8_witness :
    (CmdBuffer.new.input ":q".toList).execute.1 = ExCmdResult.Quit true ∧
      (CmdBuffer.new.input ":x".toList).execute.1 = ExCmdResult.UnknownCommand ":x".toList ∧
      (CmdBuffer.new.input ":x".toList).execute.2.buffer = [] :=
  ⟨C8_execute_lookup_and_reset.1 (CmdBuffer.new.input ":q".toList) rfl,
   by rw [C8_execute_lookup_and_reset.2.1 (CmdBuffer.new.input ":x".toList)
       (by decide) (by decide)]; rfl,
   C8_execute_lookup_and_reset.2.2 (CmdBuffer.new.input ":x".toList)⟩

theorem InputBuffer.check_cmd_eq (ib : InputBuffer) (input : List Char) :
    ib.check_cmd input =
      match Command.from_input (ib.buf ++ input) with
      | CommandMatch.PartialMatch _ =>
        (none, { ib with buf := ib.buf ++ input, cd := ib.cd.reset CooldownState.Active })
      | CommandMatch.FullMatch cmd =>
        (some { repeat' := ib.repeat'.getD 1, cmd := cmd.typ },
          InputBuffer.reset { ib with buf := ib.buf ++ input })
      | CommandMatch.NoMatch =>
        (none, InputBuffer.reset { ib with buf := ib.buf ++ input }) := rfl

/-- C5: a chunk that does not parse as digits is appended to the pending
literal; an exact table match fires the command with the accumulated count
(default 1) and clears literal and count, a proper prefix of a table entry
keeps accumulating, and anything else is dropped silently. -/
theorem C5_literal_trichotomy :
    ∀ (ib : InputBuffer) (chunk : List Char), parse_usize chunk = none →
      ((∃ c ∈ ALL_COMMANDS, c.input = ib.buf ++ chunk) →
        ∃ c ∈ ALL_COMMANDS, c.input = ib.buf ++ chunk ∧
          (ib.check chunk).1 = some { repeat' := ib.repeat'.getD 1, cmd := c.typ } ∧
          (ib.check chunk).2.buf = [] ∧ (ib.check chunk).2.repeat' = none) ∧
      ((∀ c ∈ ALL_COMMANDS, c.input ≠ ib.buf ++ chunk) →
        (∃ c ∈ ALL_COMMANDS, ∃ t, c.input = (ib.buf ++ chunk) ++ t ∧ t ≠ []) →
        (ib.check chunk).1 = none ∧ (ib.check chunk).2.buf = ib.buf ++ chunk ∧
          (ib.check chunk).2.repeat' = ib.repeat') ∧
      ((∀ c ∈ ALL_COMMANDS, ∀ t, c.input ≠ (ib.buf ++ chunk) ++ t) →
        (ib.check chunk).1 = none ∧ (ib.check chunk).2.buf = [] ∧
          (ib.check chunk).2.repeat' = none) := by
  intro ib chunk hp
  have hcheck : ib.check chunk = ib.check_cmd chunk := by
    unfold InputBuffer.check
    rw [hp]
  refine ⟨?_, ?_, ?_⟩
  · intro hex
    obtain ⟨c, hc, hci, heq⟩ := from_input_go_full ALL_COMMANDS [] hex
    refine ⟨c, hc, hci, ?_⟩
    rw [hcheck, InputBuffer.check_cmd_eq,
      show Command.from_input (ib.buf ++ chunk) = CommandMatch.FullMatch c from heq]
    exact ⟨rfl, rfl, rfl⟩
  · intro hne hpre
    obtain ⟨cs, heq⟩ := from_input_go_partial ALL_COMMANDS [] hne
      (Or.inl (by
        obtain ⟨c, hc, t, hct, _⟩ := hpre
        exact ⟨c, hc, by rw [hct]; exact starts_with_append _ t⟩))
    rw [hcheck, InputBuffer.check_cmd_eq,
      show Command.from_input (ib.buf ++ chunk) = CommandMatch.PartialMatch cs from heq]
    exact ⟨rfl, rfl, rfl⟩
  · intro hnone
    have heq := from_input_go_nomatch ALL_COMMANDS (fun c hc => by
      by_contra hsw
      have hsw' : starts_with c.input (ib.buf ++ chunk) = true := by
        revert hsw
        cases starts_with c.input (ib.buf ++ chunk) <;> simp
      obtain ⟨t, ht⟩ := starts_with_exists hsw'
      exact hnone c hc t ht)
    rw [hcheck, InputBuffer.check_cmd_eq,
      show Command.from_input (ib.buf ++ chunk) = CommandMatch.NoMatch from heq]
    exact ⟨rfl, rfl, rfl⟩

/-- Witness for C5: on a fresh recognizer, "dd" as one chunk fires
`DeleteLine`, "d" keeps accumulating, and "g" is dropped with nothing
produced. -/
theorem C5_witness :
    ((InputBuffer.new.check "dd".toList).1 =
        some { repeat' := 1, cmd := CommandType.DeleteLine } ∧
      (InputBuffer.new.check "dd".toList).2.buf = []) ∧
    ((InputBuffer.new.check "d".toList).1 = none ∧
      (InputBuffer.new.check "d".toList).2.buf = "d".toList) ∧
    ((InputBuffer.new.check "g".toList).1 = none ∧
      (InputBuffer.new.check "g".toList).2.buf = []) := by
  have h1 := (C5_literal_trichotomy InputBuffer.new "dd".toList (by decide)).1
    ⟨⟨"dd".toList, CommandType.DeleteLine⟩, by decide, by decide⟩
  have h2 := ((C5_literal_trichotomy InputBuffer.new "d".toList (by decide)).2.1
    (by decide)
    ⟨⟨"dd".toList, CommandType.DeleteLine⟩, by decide, ['d'], by decide, by decide⟩)
  have h3 := (C5_literal_trichotomy InputBuffer.new "g".toList (by decide)).2.2 (by
    intro c hc t ht
    have hsw : starts_with c.input "g".toList = true := by
      rw [ht]
      exact starts_with_append _ t
    have : starts_with c.input "g".toList = false := by
      fin_cases hc <;> decide
    rw [this] at hsw
    simp at hsw)
  obtain ⟨c, hc, hci, hact, hbuf, _⟩ := h1
  refine ⟨⟨?_, hbuf⟩, ⟨h2.1, h2.2.1⟩, ⟨h3.1, h3.2.1⟩⟩
  have : c = ⟨"dd".toList, CommandType.DeleteLine⟩ := by
    fin_cases hc <;> first | rfl | (exfalso; revert hci; decide)
  rw [hact, this]
  rfl

/-! ## Tokenizer unfolding equations -/

theorem tokFuel_congr : ∀ (fuel₁ fuel₂ : Nat) (cs : List Char) (i : Nat),
    cs.length ≤ fuel₁ → cs.length ≤ fuel₂ → tokFuel fuel₁ cs i = tokFuel fuel₂ cs i := by
  intro fuel₁
  induction fuel₁ with
  | zero =>
    intro fuel₂ cs i h1 _
    have : cs = [] := List.length_eq_zero.mp (Nat.le_zero.mp h1)
    subst this
    cases fuel₂ <;> rfl
  | succ fuel ih =>
    intro fuel₂ cs i h1 h2
    cases cs with
    | nil => cases fuel₂ <;> rfl
    | cons c rest =>
      cases fuel₂ with
      | zero => simp at h2
      | succ fuel' =>
        unfold tokFuel
        have hr : rest.length ≤ fuel := by simpa using h1
        have hr' : rest.length ≤ fuel' := by simpa using h2
        have hd : ∀ k, (rest.drop k).length ≤ fuel :=
          fun k => le_trans (by simpa using List.length_drop k rest ▸ Nat.sub_le _ _) hr
        have hd' : ∀ k, (rest.drop k).length ≤ fuel' :=
          fun k => le_trans (by simpa using List.length_drop k rest ▸ Nat.sub_le _ _) hr'
        by_cases hnl : c == '\n'
        · rw [if_pos hnl, if_pos hnl, ih fuel' rest (i + 1) hr hr']
        · rw [if_neg hnl, if_neg hnl]
          by_cases hsp : c == ' '
          · rw [if_pos hsp, if_pos hsp]
            dsimp only
            rw [ih fuel' (rest.drop (runLen spaceChar rest)) _ (hd _) (hd' _)]
          · rw [if_neg hsp, if_neg hsp]
            dsimp only
            rw [ih fuel' (rest.drop (runLen wordChar rest)) _ (hd _) (hd' _)]

theorem tokenizeFrom_nil (i : Nat) : tokenizeFrom [] i = [] := rfl

theorem tokenizeFrom_newline (rest : List Char) (i : Nat) :
    tokenizeFrom ('\n' :: rest) i = Token.newline i :: tokenizeFrom rest (i + 1) := rfl

theorem tokenizeFrom_space (rest : List Char) (i : Nat) :
    tokenizeFrom (' ' :: rest) i =
      Token.space i (runLen spaceChar rest + 1) ::
        tokenizeFrom (rest.drop (runLen spaceChar rest)) (i + runLen spaceChar rest + 1) := by
  have h1 : tokenizeFrom (' ' :: rest) i =
      Token.space i (runLen spaceChar rest + 1) ::
        tokFuel rest.length (rest.drop (runLen spaceChar rest))
          (i + runLen spaceChar rest + 1) := rfl
  rw [h1]
  refine congrArg _ ?_
  exact tokFuel_congr rest.length (rest.drop (runLen spaceChar rest)).length
    (rest.drop (runLen spaceChar rest)) (i + runLen spaceChar rest + 1)
    (by simpa using Nat.sub_le rest.length (runLen spaceChar rest)) le_rfl

theorem tokenizeFrom_word (c : Char) (rest : List Char) (i : Nat)
    (hnl : c ≠ '\n') (hsp : c ≠ ' ') :
    tokenizeFrom (c :: rest) i =
      Token.word i (runLen wordChar rest + 1) ::
        tokenizeFrom (rest.drop (runLen wordChar rest)) (i + runLen wordChar rest + 1) := by
  have h1 : tokenizeFrom (c :: rest) i = tokFuel (rest.length + 1) (c :: rest) i := rfl
  rw [h1]
  unfold tokFuel
  rw [if_neg (by simpa using hnl), if_neg (by simpa using hsp)]
  dsimp only
  refine congrArg _ ?_
  exact tokFuel_congr rest.length (rest.drop (runLen wordChar rest)).length
    (rest.drop (runLen wordChar rest)) (i + runLen wordChar rest + 1)
    (by simpa using Nat.sub_le rest.length (runLen wordChar rest)) le_rfl

/-! ## Basic facts about the canonical line decomposition -/

theorem linesOf_ne_nil : ∀ cs : List Char, linesOf cs ≠ [] := by
  intro cs
  induction cs with
  | nil => simp [linesOf]
  | cons c rest ih =>
    unfold linesOf
    by_cases h : c = '\n'
    · simp [h]
    · rw [if_neg h]
      cases hr : linesOf rest with
      | nil => simp
      | cons l ls => simp

theorem linesOf_exists_cons (cs : List Char) :
    ∃ l ls, linesOf cs = l :: ls := by
  cases h : linesOf cs with
  | nil => exact absurd h (linesOf_ne_nil cs)
  | cons l ls => exact ⟨l, ls, rfl⟩

theorem linesOf_cons_nl (cs : List Char) : linesOf ('\n' :: cs) = [] :: linesOf cs := rfl

theorem linesOf_cons_of_ne {c : Char} (hc : c ≠ '\n') {cs l : List Char}
    {ls : List (List Char)} (h : linesOf cs = l :: ls) :
    linesOf (c :: cs) = (c :: l) :: ls := by
  unfold linesOf
  rw [if_neg hc, h]

theorem linesOf_append_nonl : ∀ (xs : List Char), (∀ c ∈ xs, c ≠ '\n') →
    ∀ {cs l ls}, linesOf cs = l :: ls → linesOf (xs ++ cs) = (xs ++ l) :: ls := by
  intro xs
  induction xs with
  | nil => intro _ cs l ls h; simpa using h
  | cons x xs ih =>
    intro hx cs l ls h
    have h1 := ih (fun c hc => hx c (List.mem_cons_of_mem x hc)) h
    have h2 := linesOf_cons_of_ne (hx x (List.mem_cons_self x xs)) h1
    simpa using h2

theorem linesOf_all_nonl : ∀ (cs : List Char) (s : List Char), s ∈ linesOf cs → NoNL s := by
  intro cs
  induction cs with
  | nil =>
    intro s hs
    simp [linesOf] at hs
    subst hs
    intro c hc
    simp at hc
  | cons c rest ih =>
    intro s hs
    unfold linesOf at hs
    by_cases hc : c = '\n'
    · rw [if_pos hc] at hs
      rcases List.mem_cons.mp hs with rfl | hmem
      · intro d hd; simp at hd
      · exact ih s hmem
    · rw [if_neg hc] at hs
      obtain ⟨l, ls, heq⟩ := linesOf_exists_cons rest
      rw [heq] at hs
      rcases List.mem_cons.mp hs with rfl | hmem
      · intro d hd
        rcases List.mem_cons.mp hd with rfl | hdl
        · exact hc
        · exact ih l (heq ▸ List.mem_cons_self l ls) d hdl
      · exact ih s (heq ▸ List.mem_cons_of_mem l hmem)

theorem joinNL_cons (s : List Char) {ls : List (List Char)} (h : ls ≠ []) :
    joinNL (s :: ls) = s ++ '\n' :: joinNL ls := by
  cases ls with
  | nil => exact absurd rfl h
  | cons t ts => rfl

theorem joinNL_linesOf : ∀ cs : List Char, joinNL (linesOf cs) = cs := by
  intro cs
  induction cs with
  | nil => rfl
  | cons c rest ih =>
    by_cases hc : c = '\n'
    · subst hc
      rw [linesOf_cons_nl, joinNL_cons [] (linesOf_ne_nil rest), ih]
      rfl
    · obtain ⟨l, ls, heq⟩ := linesOf_exists_cons rest
      rw [linesOf_cons_of_ne hc heq]
      cases ls with
      | nil =>
        have : joinNL (linesOf rest) = rest := ih
        rw [heq] at this
        show c :: l = c :: rest
        rw [show l = rest from this]
      | cons t ts =>
        have : joinNL (linesOf rest) = rest := ih
        rw [heq, joinNL_cons l (by simp)] at this
        rw [joinNL_cons (c :: l) (by simp)]
        simp [this]

theorem linesOf_joinNL : ∀ segs : List (List Char), segs ≠ [] →
    (∀ s ∈ segs, NoNL s) → linesOf (joinNL segs) = segs := by
  intro segs
  induction segs with
  | nil => intro h; exact absurd rfl h
  | cons s rest ih =>
    intro _ hwf
    cases rest with
    | nil =>
      show linesOf s = [s]
      have := linesOf_append_nonl s (hwf s (List.mem_cons_self s []))
        (show linesOf ([] : List Char) = [] :: [] from rfl)
      simpa using this
    | cons t ts =>
      rw [joinNL_cons s (by simp)]
      have hrest := ih (by simp) (fun u hu => hwf u (List.mem_cons_of_mem s hu))
      have hnl : linesOf ('\n' :: joinNL (t :: ts)) = [] :: (t :: ts) := by
        rw [linesOf_cons_nl, hrest]
      have := linesOf_append_nonl s (hwf s (List.mem_cons_self s _)) hnl
      simpa using this

/-! ## Segment arithmetic -/

theorem take_append_le {α : Type} {xs ys : List α} {n : Nat} (h : n ≤ xs.length) :
    (xs ++ ys).take n = xs.take n := by
  rw [List.take_append_eq_append_take, Nat.sub_eq_zero_of_le h]
  simp

theorem drop_append_le {α : Type} {xs ys : List α} {n : Nat} (h : n ≤ xs.length) :
    (xs ++ ys).drop n = xs.drop n ++ ys := by
  rw [List.drop_append_eq_append_drop, Nat.sub_eq_zero_of_le h]
  simp

theorem segWeight_nil : segWeight [] = 0 := rfl

theorem segWeight_cons (s : List Char) (rest : List (List Char)) :
    segWeight (s :: rest) = s.length + 1 + segWeight rest := by
  simp [segWeight]

theorem segWeight_append (a b : List (List Char)) :
    segWeight (a ++ b) = segWeight a + segWeight b := by
  simp [segWeight]

theorem segStart_zero (segs : List (List Char)) : segStart segs 0 = 0 := rfl

theorem segStart_cons (s : List Char) (rest : List (List Char)) (k : Nat) :
    segStart (s :: rest) (k + 1) = s.length + 1 + segStart rest k := by
  simp [segStart, segWeight_cons]

theorem segStart_succ : ∀ (segs : List (List Char)) (k : Nat), k < segs.length →
    segStart segs (k + 1) = segStart segs k + (segs.getD k []).length + 1 := by
  intro segs
  induction segs with
  | nil => intro k hk; simp at hk
  | cons s rest ih =>
    intro k hk
    cases k with
    | zero => simp [segStart_cons, segStart_zero, List.getD]
    | succ k =>
      rw [segStart_cons, segStart_cons, ih k (by simpa using hk)]
      simp [List.getD]
      omega

theorem joinNL_length : ∀ segs : List (List Char), segs ≠ [] →
    (joinNL segs).length + 1 = segWeight segs := by
  intro segs
  induction segs with
  | nil => intro h; exact absurd rfl h
  | cons s rest ih =>
    intro _
    cases rest with
    | nil => simp [joinNL, segWeight]
    | cons t ts =>
      rw [joinNL_cons s (by simp), segWeight_cons]
      have := ih (by simp)
      simp only [List.length_append, List.length_cons]
      omega

theorem joinNL_take : ∀ (segs : List (List Char)) (k d : Nat), k < segs.length →
    d ≤ (segs.getD k []).length →
    (joinNL segs).take (segStart segs k + d) =
      joinNL (segs.take k ++ [(segs.getD k []).take d]) := by
  intro segs
  induction segs with
  | nil => intro k d hk; simp at hk
  | cons s rest ih =>
    intro k d hk hd
    cases k with
    | zero =>
      simp only [List.getD_cons_zero] at hd
      simp only [segStart_zero, Nat.zero_add, List.take_zero, List.nil_append,
        List.getD_cons_zero]
      cases rest with
      | nil => simp [joinNL]
      | cons t ts =>
        rw [joinNL_cons s (by simp), take_append_le hd]
        rfl
    | succ k =>
      have hk' : k < rest.length := by simpa using hk
      have hrest : rest ≠ [] := by
        intro h; rw [h] at hk'; simp at hk'
      rw [joinNL_cons s hrest, segStart_cons]
      have harr : s.length + 1 + segStart rest k + d =
          s.length + (1 + (segStart rest k + d)) := by omega
      rw [harr, List.take_append, show (1 + (segStart rest k + d)) = (segStart rest k + d) + 1
        from by omega]
      rw [List.take_succ_cons]
      have hd' : d ≤ (rest.getD k []).length := by simpa using hd
      rw [ih k d hk' hd']
      have : (s :: rest).take (k + 1) = s :: rest.take k := rfl
      rw [this, show (s :: rest).getD (k+1) [] = rest.getD k [] from by simp]
      rw [show (s :: rest.take k) ++ [(rest.getD k []).take d] =
        s :: (rest.take k ++ [(rest.getD k []).take d]) from rfl]
      rw [joinNL_cons s (by simp)]

theorem joinNL_drop : ∀ (segs : List (List Char)) (k d : Nat), k < segs.length →
    d ≤ (segs.getD k []).length →
    (joinNL segs).drop (segStart segs k + d) =
      joinNL ((segs.getD k []).drop d :: segs.drop (k + 1)) := by
  intro segs
  induction segs with
  | nil => intro k d hk; simp at hk
  | cons s rest ih =>
    intro k d hk hd
    cases k with
    | zero =>
      simp only [List.getD_cons_zero] at hd
      simp only [segStart_zero, Nat.zero_add, List.drop_succ_cons, List.drop_zero,
        List.getD_cons_zero]
      cases rest with
      | nil => simp [joinNL]
      | cons t ts =>
        rw [joinNL_cons s (by simp), drop_append_le hd,
          joinNL_cons (List.drop d s) (show (t :: ts) ≠ [] from by simp)]
    | succ k =>
      have hk' : k < rest.length := by simpa using hk
      have hrest : rest ≠ [] := by
        intro h; rw [h] at hk'; simp at hk'
      rw [joinNL_cons s hrest, segStart_cons]
      have harr : s.length + 1 + segStart rest k + d =
          s.length + (1 + (segStart rest k + d)) := by omega
      rw [harr, List.drop_append, show (1 + (segStart rest k + d)) = (segStart rest k + d) + 1
        from by omega]
      rw [List.drop_succ_cons]
      have hd' : d ≤ (rest.getD k []).length := by simpa using hd
      rw [ih k d hk' hd']
      simp

theorem joinNL_glue : ∀ (A : List (List Char)) (x ys z : List Char) (B : List (List Char)),
    joinNL (A ++ [x]) ++ ys ++ joinNL (z :: B) = joinNL (A ++ (x ++ ys ++ z) :: B) := by
  intro A
  induction A with
  | nil =>
    intro x ys z B
    cases B with
    | nil => simp [joinNL]
    | cons b bs =>
      simp only [List.nil_append]
      rw [joinNL_cons z (by simp), joinNL_cons (x ++ ys ++ z) (by simp)]
      simp [joinNL]
  | cons a as ih =>
    intro x ys z B
    rw [show (a :: as) ++ [x] = a :: (as ++ [x]) from rfl,
      joinNL_cons a (by simp),
      show (a :: as) ++ (x ++ ys ++ z) :: B = a :: (as ++ (x ++ ys ++ z) :: B) from rfl,
      joinNL_cons a (by simp), ← ih x ys z B]
    simp

theorem joinNL_split : ∀ (A : List (List Char)) (x z : List Char) (B : List (List Char)),
    joinNL (A ++ [x]) ++ '\n' :: joinNL (z :: B) = joinNL (A ++ x :: z :: B) := by
  intro A
  induction A with
  | nil =>
    intro x z B
    simp only [List.nil_append]
    rw [joinNL_cons x (show (z :: B) ≠ [] from by simp)]
    rfl
  | cons a as ih =>
    intro x z B
    rw [show (a :: as) ++ [x] = a :: (as ++ [x]) from rfl,
      joinNL_cons a (by simp),
      show (a :: as) ++ x :: z :: B = a :: (as ++ x :: z :: B) from rfl,
      joinNL_cons a (by simp), ← ih x z B]
    simp

theorem NoNL_append {a b : List Char} (ha : NoNL a) (hb : NoNL b) : NoNL (a ++ b) := by
  intro c hc
  rcases List.mem_append.mp hc with h | h
  · exact ha c h
  · exact hb c h

theorem NoNL_take {s : List Char} (h : NoNL s) (n : Nat) : NoNL (s.take n) :=
  fun c hc => h c (List.take_subset n s hc)

theorem NoNL_drop {s : List Char} (h : NoNL s) (n : Nat) : NoNL (s.drop n) :=
  fun c hc => h c (List.drop_subset n s hc)

/-! ## Token tiling -/

theorem tile_append : ∀ {ts us : List Token} {a m b : Nat},
    TokensTile a m ts → TokensTile m b us → TokensTile a b (ts ++ us) := by
  intro ts
  induction ts with
  | nil =>
    intro us a m b h1 h2
    have : a = m := h1
    subst this
    simpa using h2
  | cons t ts ih =>
    intro us a m b h1 h2
    obtain ⟨hidx, hlen, hrest⟩ := h1
    exact ⟨hidx, hlen, ih hrest h2⟩

theorem tile_single {t : Token} {m : Nat} (h1 : t.idx = m) (h2 : 1 ≤ t.len) :
    TokensTile m (m + t.len) [t] := ⟨h1, h2, rfl⟩

theorem tile_snoc {ts : List Token} {a m : Nat} {t : Token}
    (h : TokensTile a m ts) (h1 : t.idx = m) (h2 : 1 ≤ t.len) :
    TokensTile a (m + t.len) (ts ++ [t]) :=
  tile_append h (tile_single h1 h2)

theorem tile_le : ∀ {ts : List Token} {a b : Nat}, TokensTile a b ts → a ≤ b := by
  intro ts
  induction ts with
  | nil => intro a b h; exact Nat.le_of_eq h
  | cons t ts ih =>
    intro a b h
    obtain ⟨_, _, hrest⟩ := h
    exact le_trans (Nat.le_add_right a t.len) (ih hrest)

theorem tile_end' : ∀ {ts : List Token} {a b : Nat}, TokensTile a b ts →
    Line.end' ⟨a, ts⟩ = b := by
  intro ts
  induction ts with
  | nil => intro a b h; exact h
  | cons t ts ih =>
    intro a b h
    obtain ⟨hidx, hlen, hrest⟩ := h
    cases ts with
    | nil =>
      have hb : a + t.len = b := hrest
      simp [Line.end', hidx, hb]
    | cons u us =>
      have := ih hrest
      simpa [Line.end', List.getLast?_cons_cons] using this

theorem tile_sum : ∀ {ts : List Token} {a b : Nat}, TokensTile a b ts →
    a + (ts.map Token.len).sum = b := by
  intro ts
  induction ts with
  | nil => intro a b h; simpa using h
  | cons t ts ih =>
    intro a b h
    obtain ⟨_, _, hrest⟩ := h
    have := ih hrest
    simp only [List.map_cons, List.sum_cons]
    omega

theorem tile_mem : ∀ {ts : List Token} {a b : Nat} {t : Token}, TokensTile a b ts →
    t ∈ ts → a ≤ t.idx ∧ t.idx + t.len ≤ b ∧ 1 ≤ t.len := by
  intro ts
  induction ts with
  | nil => intro a b t _ hm; simp at hm
  | cons u us ih =>
    intro a b t h hm
    obtain ⟨hidx, hlen, hrest⟩ := h
    rcases List.mem_cons.mp hm with rfl | hmem
    · exact ⟨Nat.le_of_eq hidx.symm, by
        have := tile_le hrest
        omega, hlen⟩
    · have := ih hrest hmem
      exact ⟨le_trans (Nat.le_add_right a u.len) this.1, this.2⟩

/-! ## Run lemmas -/

theorem runLen_le (p : Char → Bool) : ∀ cs : List Char, runLen p cs ≤ cs.length := by
  intro cs
  induction cs with
  | nil => exact le_rfl
  | cons c rest ih =>
    unfold runLen
    by_cases h : p c
    · rw [if_pos h]; simpa using ih
    · rw [if_neg h]; simp

theorem runLen_take_sat (p : Char → Bool) : ∀ (cs : List Char),
    ∀ c ∈ cs.take (runLen p cs), p c = true := by
  intro cs
  induction cs with
  | nil => intro c hc; simp at hc
  | cons d rest ih =>
    intro c hc
    unfold runLen at hc
    by_cases h : p d
    · rw [if_pos h, List.take_succ_cons] at hc
      rcases List.mem_cons.mp hc with rfl | hmem
      · exact h
      · exact ih c hmem
    · rw [if_neg h] at hc
      simp at hc

theorem spaceChar_ne_nl {c : Char} (h : spaceChar c = true) : c ≠ '\n' := by
  have : c = ' ' := by simpa [spaceChar] using h
  subst this
  decide

theorem wordChar_ne_nl {c : Char} (h : wordChar c = true) : c ≠ '\n' := by
  simp only [wordChar, Bool.and_eq_true, Bool.not_eq_true', beq_eq_false_iff_ne] at h
  exact h.2

theorem buildLines_newline (s : Nat) (acc : List Token) (i : Nat) (ts : List Token) :
    buildLines s acc (Token.newline i :: ts) = ⟨s, acc⟩ :: buildLines (i + 1) [] ts := rfl

theorem buildLines_space (s : Nat) (acc : List Token) (i n : Nat) (ts : List Token) :
    buildLines s acc (Token.space i n :: ts) = buildLines s (acc ++ [Token.space i n]) ts := rfl

theorem buildLines_word (s : Nat) (acc : List Token) (i n : Nat) (ts : List Token) :
    buildLines s acc (Token.word i n :: ts) = buildLines s (acc ++ [Token.word i n]) ts := rfl

/-! ## The line index realizes the canonical decomposition -/

theorem buildLines_fit : ∀ (n : Nat) (cs : List Char), cs.length ≤ n →
    ∀ (i s : Nat) (acc : List Token), TokensTile s i acc →
    ∃ seg segs l ls, linesOf cs = seg :: segs ∧
      buildLines s acc (tokenizeFrom cs i) = l :: ls ∧
      l.idx = s ∧ TokensTile s (i + seg.length) l.tokens ∧
      LinesFit (i + seg.length + 1) segs ls := by
  intro n
  induction n with
  | zero =>
    intro cs hlen i s acc hacc
    have : cs = [] := List.length_eq_zero.mp (Nat.le_zero.mp hlen)
    subst this
    exact ⟨[], [], ⟨s, acc⟩, [], rfl, rfl, rfl, by simpa using hacc, trivial⟩
  | succ n ih =>
    intro cs hlen i s acc hacc
    cases cs with
    | nil => exact ⟨[], [], ⟨s, acc⟩, [], rfl, rfl, rfl, by simpa using hacc, trivial⟩
    | cons c rest =>
      have hrest : rest.length ≤ n := by simpa using hlen
      by_cases hnl : c = '\n'
      · subst hnl
        obtain ⟨seg', segs', l', ls', hlines, hbuild, hidx, htile, hfit⟩ :=
          ih rest hrest (i + 1) (i + 1) [] rfl
        refine ⟨[], seg' :: segs', ⟨s, acc⟩, l' :: ls', ?_, ?_, rfl, ?_, ?_⟩
        · rw [linesOf_cons_nl, hlines]
        · rw [tokenizeFrom_newline, buildLines_newline, hbuild]
        · simpa using hacc
        · show LinesFit (i + 0 + 1) (seg' :: segs') (l' :: ls')
          have h1 : i + 0 + 1 = i + 1 := by omega
          rw [h1]
          exact ⟨hidx, htile, hfit⟩
      · by_cases hsp : c = ' '
        · subst hsp
          set k := runLen spaceChar rest with hk
          have hkle : k ≤ rest.length := runLen_le spaceChar rest
          have hdrop : (rest.drop k).length ≤ n := by
            simp only [List.length_drop]
            omega
          have hacc' : TokensTile s (i + k + 1) (acc ++ [Token.space i (k + 1)]) := by
            have := tile_snoc hacc (t := Token.space i (k + 1)) rfl (by simp [Token.len])
            simpa [Token.len, Nat.add_assoc] using this
          obtain ⟨seg', segs', l', ls', hlines, hbuild, hidx, htile, hfit⟩ :=
            ih (rest.drop k) hdrop (i + k + 1) s (acc ++ [Token.space i (k + 1)]) hacc'
          have hxsnl : ∀ d ∈ ' ' :: rest.take k, d ≠ '\n' := by
            intro d hd
            rcases List.mem_cons.mp hd with rfl | hmem
            · decide
            · exact spaceChar_ne_nl (runLen_take_sat spaceChar rest d hmem)
          have hsplit : (' ' :: rest.take k) ++ rest.drop k = ' ' :: rest := by
            simp
          have hlines2 : linesOf (' ' :: rest) = ((' ' :: rest.take k) ++ seg') :: segs' := by
            rw [← hsplit]
            exact linesOf_append_nonl (' ' :: rest.take k) hxsnl hlines
          have hseglen : ((' ' :: rest.take k) ++ seg').length = k + 1 + seg'.length := by
            simp only [List.length_append, List.length_cons, List.length_take]
            omega
          refine ⟨(' ' :: rest.take k) ++ seg', segs', l', ls', hlines2, ?_, hidx, ?_, ?_⟩
          · rw [tokenizeFrom_space, buildLines_space, hbuild]
          · rw [show i + ((' ' :: rest.take k) ++ seg').length = i + k + 1 + seg'.length from by
              rw [hseglen]; omega]
            exact htile
          · rw [show i + ((' ' :: rest.take k) ++ seg').length + 1 = i + k + 1 + seg'.length + 1
              from by rw [hseglen]; omega]
            exact hfit
        · set k := runLen wordChar rest with hk
          have hkle : k ≤ rest.length := runLen_le wordChar rest
          have hdrop : (rest.drop k).length ≤ n := by
            simp only [List.length_drop]
            omega
          have hacc' : TokensTile s (i + k + 1) (acc ++ [Token.word i (k + 1)]) := by
            have := tile_snoc hacc (t := Token.word i (k + 1)) rfl (by simp [Token.len])
            simpa [Token.len, Nat.add_assoc] using this
          obtain ⟨seg', segs', l', ls', hlines, hbuild, hidx, htile, hfit⟩ :=
            ih (rest.drop k) hdrop (i + k + 1) s (acc ++ [Token.word i (k + 1)]) hacc'
          have hxsnl : ∀ d ∈ c :: rest.take k, d ≠ '\n' := by
            intro d hd
            rcases List.mem_cons.mp hd with rfl | hmem
            · exact hnl
            · exact wordChar_ne_nl (runLen_take_sat wordChar rest d hmem)
          have hsplit : (c :: rest.take k) ++ rest.drop k = c :: rest := by
            simp
          have hlines2 : linesOf (c :: rest) = ((c :: rest.take k) ++ seg') :: segs' := by
            rw [← hsplit]
            exact linesOf_append_nonl (c :: rest.take k) hxsnl hlines
          have hseglen : ((c :: rest.take k) ++ seg').length = k + 1 + seg'.length := by
            simp only [List.length_append, List.length_cons, List.length_take]
            omega
          refine ⟨(c :: rest.take k) ++ seg', segs', l', ls', hlines2, ?_, hidx, ?_, ?_⟩
          · rw [tokenizeFrom_word c rest i hnl hsp, buildLines_word, hbuild]
          · rw [show i + ((c :: rest.take k) ++ seg').length = i + k + 1 + seg'.length from by
              rw [hseglen]; omega]
            exact htile
          · rw [show i + ((c :: rest.take k) ++ seg').length + 1 = i + k + 1 + seg'.length + 1
              from by rw [hseglen]; omega]
            exact hfit

theorem tokenizeLines_fit (buf : List Char) :
    LinesFit 0 (linesOf buf) (tokenizeLines buf) := by
  obtain ⟨seg, segs, l, ls, hlines, hbuild, hidx, htile, hfit⟩ :=
    buildLines_fit buf.length buf le_rfl 0 0 [] rfl
  rw [hlines]
  unfold tokenizeLines
  rw [hbuild]
  exact ⟨hidx, by simpa using htile, by simpa using hfit⟩

theorem fit_length : ∀ {segs : List (List Char)} {ls : List Line} {b : Nat},
    LinesFit b segs ls → ls.length = segs.length := by
  intro segs
  induction segs with
  | nil =>
    intro ls b h
    cases ls with
    | nil => rfl
    | cons l ls => exact h.elim
  | cons seg segs ih =>
    intro ls b h
    cases ls with
    | nil => exact h.elim
    | cons l ls =>
      obtain ⟨_, _, hrest⟩ := h
      simpa using ih hrest

theorem fit_get : ∀ {segs : List (List Char)} {ls : List Line} {b : Nat},
    LinesFit b segs ls → ∀ k, k < segs.length →
      (ls.getD k ⟨0, []⟩).idx = b + segStart segs k ∧
      TokensTile (b + segStart segs k)
        (b + segStart segs k + (segs.getD k []).length) (ls.getD k ⟨0, []⟩).tokens := by
  intro segs
  induction segs with
  | nil => intro ls b _ k hk; simp at hk
  | cons seg segs ih =>
    intro ls b h k hk
    cases ls with
    | nil => exact h.elim
    | cons l ls =>
      obtain ⟨hidx, htile, hrest⟩ := h
      cases k with
      | zero =>
        simp only [List.getD_cons_zero, segStart_zero, Nat.add_zero]
        exact ⟨hidx, htile⟩
      | succ k =>
        have hk' : k < segs.length := by simpa using hk
        have := ih hrest k hk'
        simp only [List.getD_cons_succ, segStart_cons]
        constructor
        · rw [this.1]; omega
        · have h2 := this.2
          rw [show b + (seg.length + 1 + segStart segs k) =
            b + seg.length + 1 + segStart segs k from by omega]
          exact h2

/-! ## Editor geometry under well-formedness -/

theorem Editor.lines_length (e : Editor) (hwf : e.Wf) :
    e.lines.length = (linesOf e.buffer).length := by
  rw [hwf]
  exact fit_length (tokenizeLines_fit e.buffer)

theorem Editor.geom (e : Editor) (hwf : e.Wf) (k : Nat)
    (hk : k < (linesOf e.buffer).length) :
    (e.lines.getD k ⟨0, []⟩).start = segStart (linesOf e.buffer) k ∧
    (e.lines.getD k ⟨0, []⟩).end' =
      segStart (linesOf e.buffer) k + ((linesOf e.buffer).getD k []).length ∧
    e.line_len (e.lines.getD k ⟨0, []⟩) = ((linesOf e.buffer).getD k []).length ∧
    TokensTile (segStart (linesOf e.buffer) k)
      (segStart (linesOf e.buffer) k + ((linesOf e.buffer).getD k []).length)
      (e.lines.getD k ⟨0, []⟩).tokens := by
  have hfit := tokenizeLines_fit e.buffer
  rw [← hwf] at hfit
  have := fit_get hfit k hk
  simp only [Nat.zero_add] at this
  obtain ⟨hidx, htile⟩ := this
  refine ⟨hidx, ?_, ?_, htile⟩
  · have := tile_end' htile
    calc (e.lines.getD k ⟨0, []⟩).end'
        = Line.end' ⟨(e.lines.getD k ⟨0, []⟩).idx, (e.lines.getD k ⟨0, []⟩).tokens⟩ := rfl
      _ = _ := by rw [hidx]; exact this
  · have hsum := tile_sum htile
    unfold Editor.line_len
    omega

theorem Editor.buffer_weight (e : Editor) :
    e.buffer.length + 1 = segWeight (linesOf e.buffer) := by
  have h1 : joinNL (linesOf e.buffer) = e.buffer := joinNL_linesOf e.buffer
  have := joinNL_length (linesOf e.buffer) (linesOf_ne_nil e.buffer)
  rw [h1] at this
  exact this

theorem segWeight_take_le (segs : List (List Char)) (k : Nat) :
    segWeight (segs.take k) ≤ segWeight segs := by
  conv_rhs => rw [← List.take_append_drop k segs]
  rw [segWeight_append]
  omega

theorem seg_end_le (segs : List (List Char)) (k : Nat) (hk : k < segs.length) :
    segStart segs k + (segs.getD k []).length + 1 ≤ segWeight segs := by
  have := segStart_succ segs k hk
  have h2 : segStart segs (k + 1) ≤ segWeight segs := segWeight_take_le segs (k + 1)
  omega

/-- The cursor invariant restated over the canonical segment decomposition. -/
theorem Editor.inv_iff (e : Editor) (hwf : e.Wf) :
    e.CursorInv ↔
      (e.cursor.line < (linesOf e.buffer).length ∧
       e.cursor.idx = segStart (linesOf e.buffer) e.cursor.line + e.cursor.col ∧
       e.cursor.col ≤ ((linesOf e.buffer).getD e.cursor.line []).length) := by
  constructor
  · intro h
    obtain ⟨hlt, heq, _, hle⟩ := h
    have hlt' : e.cursor.line < (linesOf e.buffer).length := by
      rw [← Editor.lines_length e hwf]
      exact hlt
    obtain ⟨hstart, hend, _, _⟩ := Editor.geom e hwf e.cursor.line hlt'
    refine ⟨hlt', ?_, ?_⟩
    · rw [← heq, hstart]
    · rw [hend] at hle
      rw [hstart] at heq
      omega
  · intro ⟨hlt, heq, hle⟩
    obtain ⟨hstart, hend, _, _⟩ := Editor.geom e hwf e.cursor.line hlt
    refine ⟨by rw [Editor.lines_length e hwf]; exact hlt, ?_, ?_, ?_⟩
    · rw [hstart]; omega
    · rw [hstart]; omega
    · rw [hend]; omega

/-! ## Buffer decomposition at the cursor -/

theorem segs_take (segs : List (List Char)) (p : Pos) (h : SegsInv segs p) :
    (joinNL segs).take p.idx =
      joinNL (segs.take p.line ++ [(segs.getD p.line []).take p.col]) := by
  obtain ⟨hlt, heq, hle⟩ := h
  rw [heq]
  exact joinNL_take segs p.line p.col hlt hle

theorem segs_drop (segs : List (List Char)) (p : Pos) (h : SegsInv segs p) :
    (joinNL segs).drop p.idx =
      joinNL ((segs.getD p.line []).drop p.col :: segs.drop (p.line + 1)) := by
  obtain ⟨hlt, heq, hle⟩ := h
  rw [heq]
  exact joinNL_drop segs p.line p.col hlt hle

theorem strInsertAt_segs (segs : List (List Char)) (p : Pos) (h : SegsInv segs p)
    (t : List Char) :
    strInsertAt (joinNL segs) p.idx t =
      joinNL (segs.take p.line ++
        ((segs.getD p.line []).take p.col ++ t ++ (segs.getD p.line []).drop p.col) ::
        segs.drop (p.line + 1)) := by
  unfold strInsertAt
  rw [segs_take segs p h, segs_drop segs p h]
  have := joinNL_glue (segs.take p.line) ((segs.getD p.line []).take p.col) t
    ((segs.getD p.line []).drop p.col) (segs.drop (p.line + 1))
  simpa using this

theorem getD_append_off {α : Type} : ∀ (A : List α) (Y : List α) (j : Nat) (d : α),
    (A ++ Y).getD (A.length + j) d = Y.getD j d := by
  intro A
  induction A with
  | nil => intro Y j d; simp
  | cons a as ih =>
    intro Y j d
    rw [show (a :: as : List α).length + j = (as.length + j) + 1 from by
      simp only [List.length_cons]; omega]
    simp only [List.cons_append, List.getD_cons_succ]
    exact ih Y j d

theorem getD_append_mid {α : Type} (A : List α) (mid : α) (B : List α) (d : α) :
    (A ++ mid :: B).getD A.length d = mid := by
  simpa using getD_append_off A (mid :: B) 0 d

theorem getD_mem {α : Type} : ∀ (l : List α) (k : Nat) (d : α), k < l.length →
    l.getD k d ∈ l := by
  intro l
  induction l with
  | nil => intro k d hk; simp at hk
  | cons a as ih =>
    intro k d hk
    cases k with
    | zero => simp
    | succ k =>
      simp only [List.getD_cons_succ]
      exact List.mem_cons_of_mem a (ih k d (by simpa using hk))

theorem segStart_at_append (A B : List (List Char)) : segStart (A ++ B) A.length = segWeight A := by
  unfold segStart
  rw [List.take_left]

theorem segStart_edit (A Y : List (List Char)) {k : Nat} (hk : A.length = k) :
    segStart (A ++ Y) k = segWeight A := by
  subst hk
  exact segStart_at_append A Y

theorem getD_edit {α : Type} (A : List α) (mid : α) (B : List α) (d : α) {k : Nat}
    (hk : A.length = k) : (A ++ mid :: B).getD k d = mid := by
  subst hk
  exact getD_append_mid A mid B d

theorem take_append_mid {α : Type} (A : List α) (x : α) (Y : List α) :
    (A ++ x :: Y).take (A.length + 1) = A ++ [x] := by
  rw [List.take_append]
  rfl

theorem length_take_of_lt {α : Type} {l : List α} {k : Nat} (h : k < l.length) :
    (l.take k).length = k := by
  simp [List.length_take]
  omega

theorem nonl_getD {segs : List (List Char)} (hall : ∀ s ∈ segs, NoNL s) (k : Nat)
    (hk : k < segs.length) : NoNL (segs.getD k []) :=
  hall _ (getD_mem segs k [] hk)

theorem segs_edit_nonl {segs : List (List Char)} (hall : ∀ s ∈ segs, NoNL s)
    {mid : List Char} (hm : NoNL mid) (k j : Nat) :
    ∀ s ∈ segs.take k ++ mid :: segs.drop j, NoNL s := by
  intro s hs
  rcases List.mem_append.mp hs with h | h
  · exact hall s (List.take_subset k segs h)
  · rcases List.mem_cons.mp h with rfl | h
    · exact hm
    · exact hall s (List.drop_subset j segs h)

/-! ## Invariant preservation, edit operations -/

theorem Editor.insert_inv (e : Editor) (t : List Char) (ht : NoNL t) (h : e.Inv) :
    (e.insert t).Inv := by
  obtain ⟨hwf, hcur⟩ := h
  have hsi := (Editor.inv_iff e hwf).mp hcur
  have hall := linesOf_all_nonl e.buffer
  have hbuf := (joinNL_linesOf e.buffer).symm
  have hwf' : (e.insert t).Wf := rfl
  refine ⟨hwf', ?_⟩
  obtain ⟨hlt, heq, hle⟩ := hsi
  have hseg : NoNL ((linesOf e.buffer).getD e.cursor.line []) :=
    nonl_getD hall e.cursor.line hlt
  have hbuf' : (e.insert t).buffer =
      joinNL ((linesOf e.buffer).take e.cursor.line ++
        (((linesOf e.buffer).getD e.cursor.line []).take e.cursor.col ++ t ++
          ((linesOf e.buffer).getD e.cursor.line []).drop e.cursor.col) ::
        (linesOf e.buffer).drop (e.cursor.line + 1)) := by
    show strInsertAt e.buffer e.cursor.idx t = _
    conv_lhs => rw [hbuf]
    exact strInsertAt_segs (linesOf e.buffer) e.cursor ⟨hlt, heq, hle⟩ t
  have hnl' : ∀ s ∈ (linesOf e.buffer).take e.cursor.line ++
      (((linesOf e.buffer).getD e.cursor.line []).take e.cursor.col ++ t ++
        ((linesOf e.buffer).getD e.cursor.line []).drop e.cursor.col) ::
      (linesOf e.buffer).drop (e.cursor.line + 1), NoNL s :=
    segs_edit_nonl hall
      (NoNL_append (NoNL_append (NoNL_take hseg _) ht) (NoNL_drop hseg _)) _ _
  have hlines' : linesOf (e.insert t).buffer =
      (linesOf e.buffer).take e.cursor.line ++
        (((linesOf e.buffer).getD e.cursor.line []).take e.cursor.col ++ t ++
          ((linesOf e.buffer).getD e.cursor.line []).drop e.cursor.col) ::
        (linesOf e.buffer).drop (e.cursor.line + 1) := by
    rw [hbuf']
    exact linesOf_joinNL _ (by simp) hnl'
  rw [Editor.inv_iff _ hwf', hlines']
  have hcursor : (e.insert t).cursor = e.cursor.next t.length := rfl
  rw [hcursor]
  unfold Pos.next
  have hLtk : ((linesOf e.buffer).take e.cursor.line).length = e.cursor.line :=
    length_take_of_lt hlt
  refine ⟨?_, ?_, ?_⟩
  · simp only [List.length_append, List.length_cons, List.length_take, List.length_drop]
    omega
  · show e.cursor.idx + t.length = _ + (e.cursor.col + t.length)
    rw [segStart_edit _ _ hLtk]
    unfold segStart at heq
    omega
  · show e.cursor.col + t.length ≤ _
    rw [getD_edit _ _ _ _ hLtk]
    simp only [List.length_append, List.length_take, List.length_drop]
    omega

theorem segStart_mid_succ (A : List (List Char)) (x : List Char) (Y : List (List Char))
    {k : Nat} (hk : A.length = k) :
    segStart (A ++ x :: Y) (k + 1) = segWeight A + x.length + 1 := by
  subst hk
  unfold segStart
  rw [take_append_mid, segWeight_append]
  simp [segWeight_cons, segWeight_nil]
  omega

theorem Editor.new_line_inv (e : Editor) (h : e.Inv) : e.new_line.Inv := by
  obtain ⟨hwf, hcur⟩ := h
  have hsi := (Editor.inv_iff e hwf).mp hcur
  have hall := linesOf_all_nonl e.buffer
  have hbuf := (joinNL_linesOf e.buffer).symm
  have hwf' : e.new_line.Wf := rfl
  refine ⟨hwf', ?_⟩
  obtain ⟨hlt, heq, hle⟩ := hsi
  have hseg : NoNL ((linesOf e.buffer).getD e.cursor.line []) :=
    nonl_getD hall e.cursor.line hlt
  have hbuf' : e.new_line.buffer =
      joinNL ((linesOf e.buffer).take e.cursor.line ++
        ((linesOf e.buffer).getD e.cursor.line []).take e.cursor.col ::
        ((linesOf e.buffer).getD e.cursor.line []).drop e.cursor.col ::
        (linesOf e.buffer).drop (e.cursor.line + 1)) := by
    show strInsertAt e.buffer e.cursor.idx ['\n'] = _
    conv_lhs => rw [hbuf]
    unfold strInsertAt
    rw [segs_take _ _ ⟨hlt, heq, hle⟩, segs_drop _ _ ⟨hlt, heq, hle⟩]
    have := joinNL_split ((linesOf e.buffer).take e.cursor.line)
      (((linesOf e.buffer).getD e.cursor.line []).take e.cursor.col)
      (((linesOf e.buffer).getD e.cursor.line []).drop e.cursor.col)
      ((linesOf e.buffer).drop (e.cursor.line + 1))
    simpa using this
  have hnl' : ∀ s ∈ (linesOf e.buffer).take e.cursor.line ++
      ((linesOf e.buffer).getD e.cursor.line []).take e.cursor.col ::
      ((linesOf e.buffer).getD e.cursor.line []).drop e.cursor.col ::
      (linesOf e.buffer).drop (e.cursor.line + 1), NoNL s := by
    intro s hs
    rcases List.mem_append.mp hs with hm | hm
    · exact hall s (List.take_subset _ _ hm)
    · rcases List.mem_cons.mp hm with rfl | hm
      · exact NoNL_take hseg _
      · rcases List.mem_cons.mp hm with rfl | hm
        · exact NoNL_drop hseg _
        · exact hall s (List.drop_subset _ _ hm)
  have hlines' : linesOf e.new_line.buffer =
      (linesOf e.buffer).take e.cursor.line ++
        ((linesOf e.buffer).getD e.cursor.line []).take e.cursor.col ::
        ((linesOf e.buffer).getD e.cursor.line []).drop e.cursor.col ::
        (linesOf e.buffer).drop (e.cursor.line + 1) := by
    rw [hbuf']
    exact linesOf_joinNL _ (by simp) hnl'
  rw [Editor.inv_iff _ hwf', hlines']
  have hcursor : e.new_line.cursor = e.cursor.new_line := rfl
  rw [hcursor]
  unfold Pos.new_line
  have hLtk : ((linesOf e.buffer).take e.cursor.line).length = e.cursor.line :=
    length_take_of_lt hlt
  refine ⟨?_, ?_, ?_⟩
  · simp only [List.length_append, List.length_cons, List.length_take, List.length_drop]
    omega
  · show e.cursor.idx + 1 = _ + 0
    rw [segStart_mid_succ _ _ _ hLtk]
    unfold segStart at heq
    simp only [List.length_take]
    omega
  · exact Nat.zero_le _

theorem Editor.tokenize_wf (e : Editor) : (Editor.tokenize e).Wf := rfl

theorem erase_in_seg (segs : List (List Char)) (p : Pos) (h : SegsInv segs p)
    (hcol : p.col < (segs.getD p.line []).length) :
    (joinNL segs).eraseIdx p.idx =
      joinNL (segs.take p.line ++
        ((segs.getD p.line []).take p.col ++ (segs.getD p.line []).drop (p.col + 1)) ::
        segs.drop (p.line + 1)) := by
  obtain ⟨hlt, heq, hle⟩ := h
  rw [List.eraseIdx_eq_take_drop_succ, segs_take segs p ⟨hlt, heq, hle⟩]
  have hdrop : (joinNL segs).drop (p.idx + 1) =
      joinNL ((segs.getD p.line []).drop (p.col + 1) :: segs.drop (p.line + 1)) := by
    rw [show p.idx + 1 = segStart segs p.line + (p.col + 1) from by omega]
    exact joinNL_drop segs p.line (p.col + 1) hlt hcol
  rw [hdrop]
  have := joinNL_glue (segs.take p.line) ((segs.getD p.line []).take p.col) []
    ((segs.getD p.line []).drop (p.col + 1)) (segs.drop (p.line + 1))
  simpa using this

theorem erase_newline (segs : List (List Char)) (L : Nat) (hL : L + 1 < segs.length) :
    (joinNL segs).eraseIdx (segStart segs L + (segs.getD L []).length) =
      joinNL (segs.take L ++ (segs.getD L [] ++ segs.getD (L + 1) []) ::
        segs.drop (L + 2)) := by
  have hLlt : L < segs.length := by omega
  rw [List.eraseIdx_eq_take_drop_succ]
  have htake : (joinNL segs).take (segStart segs L + (segs.getD L []).length) =
      joinNL (segs.take L ++ [segs.getD L []]) := by
    rw [joinNL_take segs L ((segs.getD L []).length) hLlt le_rfl, List.take_length]
  have hdrop : (joinNL segs).drop (segStart segs L + (segs.getD L []).length + 1) =
      joinNL (segs.getD (L + 1) [] :: segs.drop (L + 2)) := by
    rw [show segStart segs L + (segs.getD L []).length + 1 = segStart segs (L + 1) + 0 from by
      rw [segStart_succ segs L hLlt]]
    have := joinNL_drop segs (L + 1) 0 hL (Nat.zero_le _)
    simpa using this
  rw [htake, hdrop]
  have := joinNL_glue (segs.take L) (segs.getD L []) []
    (segs.getD (L + 1) []) (segs.drop (L + 2))
  simpa using this

theorem Editor.delete_char_inv (e : Editor) (h : e.Inv) : e.delete_char.Inv := by
  obtain ⟨hwf, hcur⟩ := h
  have hsi := (Editor.inv_iff e hwf).mp hcur
  obtain ⟨hlt, heq, hle⟩ := hsi
  have hall := linesOf_all_nonl e.buffer
  have hbuf := (joinNL_linesOf e.buffer).symm
  have hseg : NoNL ((linesOf e.buffer).getD e.cursor.line []) :=
    nonl_getD hall e.cursor.line hlt
  obtain ⟨hstart, hend, hlen, htile⟩ := Editor.geom e hwf e.cursor.line hlt
  by_cases hguard : e.cursor.idx < e.buffer.length ∧
      e.cursor.col < e.line_len e.line
  · have hcol : e.cursor.col < ((linesOf e.buffer).getD e.cursor.line []).length := by
      have := hguard.2
      unfold Editor.line at this
      rw [hlen] at this
      exact this
    have hdel : e.delete_char = Editor.tokenize
        { e with buffer := e.buffer.eraseIdx e.cursor.idx } := by
      unfold Editor.delete_char
      rw [if_pos hguard]
    have hbuf' : (e.buffer.eraseIdx e.cursor.idx) =
        joinNL ((linesOf e.buffer).take e.cursor.line ++
          (((linesOf e.buffer).getD e.cursor.line []).take e.cursor.col ++
            ((linesOf e.buffer).getD e.cursor.line []).drop (e.cursor.col + 1)) ::
          (linesOf e.buffer).drop (e.cursor.line + 1)) := by
      conv_lhs => rw [hbuf]
      exact erase_in_seg (linesOf e.buffer) e.cursor ⟨hlt, heq, hle⟩ hcol
    rw [hdel]
    refine ⟨Editor.tokenize_wf _, ?_⟩
    rw [Editor.inv_iff _ (Editor.tokenize_wf _)]
    have hlines' : linesOf (Editor.tokenize
        { e with buffer := e.buffer.eraseIdx e.cursor.idx }).buffer =
        (linesOf e.buffer).take e.cursor.line ++
          (((linesOf e.buffer).getD e.cursor.line []).take e.cursor.col ++
            ((linesOf e.buffer).getD e.cursor.line []).drop (e.cursor.col + 1)) ::
          (linesOf e.buffer).drop (e.cursor.line + 1) := by
      show linesOf (e.buffer.eraseIdx e.cursor.idx) = _
      rw [hbuf']
      exact linesOf_joinNL _ (by simp)
        (segs_edit_nonl hall (NoNL_append (NoNL_take hseg _) (NoNL_drop hseg _)) _ _)
    rw [hlines',
      show (Editor.tokenize { e with buffer := e.buffer.eraseIdx e.cursor.idx }).cursor =
        e.cursor from rfl]
    have hLtk : ((linesOf e.buffer).take e.cursor.line).length = e.cursor.line :=
      length_take_of_lt hlt
    refine ⟨?_, ?_, ?_⟩
    · simp only [List.length_append, List.length_cons, List.length_take, List.length_drop]
      omega
    · show e.cursor.idx = _ + e.cursor.col
      rw [segStart_edit _ _ hLtk]
      unfold segStart at heq
      omega
    · show e.cursor.col ≤ _
      rw [getD_edit _ _ _ _ hLtk]
      simp only [List.length_append, List.length_take, List.length_drop]
      omega
  · have hdel : e.delete_char = e := by
      unfold Editor.delete_char
      rw [if_neg hguard]
    rw [hdel]
    exact ⟨hwf, hcur⟩


theorem Editor.delete_inv (e : Editor) (h : e.Inv) : e.delete.Inv := by
  obtain ⟨hwf, hcur⟩ := h
  have hsi := (Editor.inv_iff e hwf).mp hcur
  obtain ⟨hlt, heq, hle⟩ := hsi
  have hall := linesOf_all_nonl e.buffer
  have hbuf := (joinNL_linesOf e.buffer).symm
  have hseg : NoNL ((linesOf e.buffer).getD e.cursor.line []) :=
    nonl_getD hall e.cursor.line hlt
  by_cases hpos : 0 < e.cursor.idx
  · have hweight := Editor.buffer_weight e
    have hendle := seg_end_le (linesOf e.buffer) e.cursor.line hlt
    have hidxle : e.cursor.idx ≤ e.buffer.length := by omega
    have hguard : 0 < e.cursor.idx ∧ e.cursor.idx ≤ e.buffer.length := ⟨hpos, hidxle⟩
    by_cases hcol : 0 < e.cursor.col
    · have hbuf2 : e.delete.buffer = e.buffer.eraseIdx (e.cursor.idx - 1) := by
        unfold Editor.delete
        rw [if_pos hguard]
        rfl
      have hwf2 : e.delete.Wf := by
        unfold Editor.delete
        rw [if_pos hguard]
        exact Editor.tokenize_wf _
      have hcur2 : e.delete.cursor =
          { e.cursor with idx := e.cursor.idx - 1, col := e.cursor.col - 1 } := by
        unfold Editor.delete
        rw [if_pos hguard]
        dsimp only
        rw [if_pos hcol]
        rfl
      have hp' : SegsInv (linesOf e.buffer)
          ⟨e.cursor.idx - 1, e.cursor.line, e.cursor.col - 1⟩ := by
        refine ⟨hlt, ?_, ?_⟩ <;> dsimp only <;> omega
      have hcol' : e.cursor.col - 1 < ((linesOf e.buffer).getD e.cursor.line []).length := by
        omega
      have hbufe := erase_in_seg (linesOf e.buffer)
        ⟨e.cursor.idx - 1, e.cursor.line, e.cursor.col - 1⟩ hp' hcol'
      dsimp only at hbufe
      refine ⟨hwf2, ?_⟩
      rw [Editor.inv_iff _ hwf2, hcur2]
      have hlines' : linesOf e.delete.buffer =
          (linesOf e.buffer).take e.cursor.line ++
            (((linesOf e.buffer).getD e.cursor.line []).take (e.cursor.col - 1) ++
              ((linesOf e.buffer).getD e.cursor.line []).drop (e.cursor.col - 1 + 1)) ::
            (linesOf e.buffer).drop (e.cursor.line + 1) := by
        rw [hbuf2]
        conv_lhs => rw [hbuf]
        rw [hbufe]
        exact linesOf_joinNL _ (by simp)
          (segs_edit_nonl hall (NoNL_append (NoNL_take hseg _) (NoNL_drop hseg _)) _ _)
      rw [hlines']
      have hLtk : ((linesOf e.buffer).take e.cursor.line).length = e.cursor.line :=
        length_take_of_lt hlt
      refine ⟨?_, ?_, ?_⟩
      · simp only [List.length_append, List.length_cons, List.length_take, List.length_drop]
        omega
      · show e.cursor.idx - 1 = _ + (e.cursor.col - 1)
        rw [segStart_edit _ _ hLtk]
        unfold segStart at heq
        omega
      · show e.cursor.col - 1 ≤ _
        rw [getD_edit _ _ _ _ hLtk]
        simp only [List.length_append, List.length_take, List.length_drop]
        omega
    · have hLpos : 0 < e.cursor.line := by
        rcases Nat.eq_zero_or_pos e.cursor.line with h0 | h0
        · rw [h0, segStart_zero] at heq
          omega
        · exact h0
      have hbuf2 : e.delete.buffer = e.buffer.eraseIdx (e.cursor.idx - 1) := by
        unfold Editor.delete
        rw [if_pos hguard]
        rfl
      have hwf2 : e.delete.Wf := by
        unfold Editor.delete
        rw [if_pos hguard]
        exact Editor.tokenize_wf _
      have hcur2 : e.delete.cursor =
          { idx := e.cursor.idx - 1, line := e.cursor.line - 1,
            col := e.line_len (e.lines.getD (e.cursor.line - 1) ⟨0, []⟩) } := by
        unfold Editor.delete
        rw [if_pos hguard]
        dsimp only
        rw [if_neg hcol, if_pos hLpos]
        rfl
      have hL1lt : e.cursor.line - 1 < (linesOf e.buffer).length := by omega
      obtain ⟨_, _, hlen1, _⟩ := Editor.geom e hwf (e.cursor.line - 1) hL1lt
      have hseg1 : NoNL ((linesOf e.buffer).getD (e.cursor.line - 1) []) :=
        nonl_getD hall (e.cursor.line - 1) hL1lt
      have hsucc := segStart_succ (linesOf e.buffer) (e.cursor.line - 1) hL1lt
      rw [show e.cursor.line - 1 + 1 = e.cursor.line from by omega] at hsucc
      have hbufe : e.buffer.eraseIdx (e.cursor.idx - 1) =
          joinNL ((linesOf e.buffer).take (e.cursor.line - 1) ++
            ((linesOf e.buffer).getD (e.cursor.line - 1) [] ++
              (linesOf e.buffer).getD (e.cursor.line - 1 + 1) []) ::
            (linesOf e.buffer).drop (e.cursor.line - 1 + 2)) := by
        conv_lhs => rw [hbuf]
        have he := erase_newline (linesOf e.buffer) (e.cursor.line - 1) (by omega)
        rw [show segStart (linesOf e.buffer) (e.cursor.line - 1) +
            ((linesOf e.buffer).getD (e.cursor.line - 1) []).length =
            e.cursor.idx - 1 from by omega] at he
        exact he
      refine ⟨hwf2, ?_⟩
      rw [Editor.inv_iff _ hwf2, hcur2]
      have hlines' : linesOf e.delete.buffer =
          (linesOf e.buffer).take (e.cursor.line - 1) ++
            ((linesOf e.buffer).getD (e.cursor.line - 1) [] ++
              (linesOf e.buffer).getD (e.cursor.line - 1 + 1) []) ::
            (linesOf e.buffer).drop (e.cursor.line - 1 + 2) := by
        rw [hbuf2, hbufe]
        refine linesOf_joinNL _ (by simp) ?_
        refine segs_edit_nonl hall (NoNL_append hseg1 ?_) _ _
        rw [show e.cursor.line - 1 + 1 = e.cursor.line from by omega]
        exact hseg
      rw [hlines']
      have hLtk : ((linesOf e.buffer).take (e.cursor.line - 1)).length = e.cursor.line - 1 :=
        length_take_of_lt hL1lt
      refine ⟨?_, ?_, ?_⟩
      · simp only [List.length_append, List.length_cons, List.length_take, List.length_drop]
        omega
      · show e.cursor.idx - 1 = _ + e.line_len (e.lines.getD (e.cursor.line - 1) ⟨0, []⟩)
        rw [segStart_edit _ _ hLtk, hlen1]
        unfold segStart at heq hsucc
        omega
      · show e.line_len (e.lines.getD (e.cursor.line - 1) ⟨0, []⟩) ≤ _
        rw [getD_edit _ _ _ _ hLtk, hlen1]
        rw [show e.cursor.line - 1 + 1 = e.cursor.line from by omega]
        simp only [List.length_append]
        omega
  · have hdel : e.delete = e := by
      unfold Editor.delete
      rw [if_neg (fun hc => hpos hc.1)]
    rw [hdel]
    exact ⟨hwf, hcur⟩

theorem Editor.inv_iff' (e : Editor) (hwf : e.Wf) :
    e.CursorInv ↔ SegsInv (linesOf e.buffer) e.cursor :=
  Editor.inv_iff e hwf

/-! ## Invariant preservation, motions -/

theorem Editor.move_left_inv (e : Editor) (h : e.Inv) : e.move_left.Inv := by
  obtain ⟨hwf, hcur⟩ := h
  obtain ⟨hlt, heq, hle⟩ := (Editor.inv_iff' e hwf).mp hcur
  have hwf' : e.move_left.Wf := hwf
  refine ⟨hwf', ?_⟩
  rw [Editor.inv_iff' _ hwf']
  show SegsInv (linesOf e.buffer) (e.cursor.prev 1)
  unfold Pos.prev
  by_cases h1 : 1 ≤ e.cursor.col
  · rw [if_pos h1]
    exact ⟨hlt, by dsimp only; omega, by dsimp only; omega⟩
  · rw [if_neg h1]
    exact ⟨hlt, heq, hle⟩

theorem Editor.move_right_inv (e : Editor) (h : e.Inv) : e.move_right.Inv := by
  obtain ⟨hwf, hcur⟩ := h
  obtain ⟨hlt, heq, hle⟩ := (Editor.inv_iff' e hwf).mp hcur
  obtain ⟨hstart, hend, hlen, htile⟩ := Editor.geom e hwf e.cursor.line hlt
  unfold Editor.move_right
  by_cases hg : e.cursor.col < e.line_len e.line
  · rw [if_pos hg]
    refine ⟨hwf, ?_⟩
    rw [Editor.inv_iff' _ (show Editor.Wf { e with cursor := e.cursor.next 1 } from hwf)]
    unfold Editor.line at hg
    rw [hlen] at hg
    unfold Pos.next
    exact ⟨hlt, by dsimp only; omega, by dsimp only; omega⟩
  · rw [if_neg hg]
    exact ⟨hwf, hcur⟩

theorem Editor.move_start_of_line_inv (e : Editor) (h : e.Inv) :
    e.move_start_of_line.Inv := by
  obtain ⟨hwf, hcur⟩ := h
  obtain ⟨hlt, heq, hle⟩ := (Editor.inv_iff' e hwf).mp hcur
  obtain ⟨hstart, hend, hlen, htile⟩ := Editor.geom e hwf e.cursor.line hlt
  have hwf' : e.move_start_of_line.Wf := hwf
  refine ⟨hwf', ?_⟩
  rw [Editor.inv_iff' _ hwf']
  show SegsInv (linesOf e.buffer)
    { e.cursor with col := 0, idx := e.line.start }
  unfold Editor.line
  refine ⟨hlt, ?_, ?_⟩ <;> dsimp only
  · rw [hstart]
    omega
  · exact Nat.zero_le _

theorem Editor.move_end_of_line_inv (e : Editor) (h : e.Inv) :
    e.move_end_of_line.Inv := by
  obtain ⟨hwf, hcur⟩ := h
  obtain ⟨hlt, heq, hle⟩ := (Editor.inv_iff' e hwf).mp hcur
  obtain ⟨hstart, hend, hlen, htile⟩ := Editor.geom e hwf e.cursor.line hlt
  have hwf' : e.move_end_of_line.Wf := hwf
  refine ⟨hwf', ?_⟩
  rw [Editor.inv_iff' _ hwf']
  show SegsInv (linesOf e.buffer)
    { e.cursor with col := e.line.end' - e.line.start, idx := e.line.end' }
  unfold Editor.line
  refine ⟨hlt, ?_, ?_⟩ <;> dsimp only <;> simp only [hend, hstart] <;> omega

theorem Editor.move_down_inv (e : Editor) (h : e.Inv) : e.move_down.Inv := by
  obtain ⟨hwf, hcur⟩ := h
  obtain ⟨hlt, heq, hle⟩ := (Editor.inv_iff' e hwf).mp hcur
  unfold Editor.move_down
  by_cases hg : e.cursor.line + 1 < e.lines.length
  · rw [if_pos hg]
    dsimp only
    have hlt2 : e.cursor.line + 1 < (linesOf e.buffer).length := by
      rw [← Editor.lines_length e hwf]
      exact hg
    obtain ⟨hstart, hend, hlen, htile⟩ := Editor.geom e hwf (e.cursor.line + 1) hlt2
    refine ⟨hwf, ⟨hg, ?_, ?_, ?_⟩⟩ <;> dsimp only <;>
      (try simp only [hend, hstart, hlen]) <;> omega
  · rw [if_neg hg]
    exact ⟨hwf, hcur⟩

theorem Editor.move_up_inv (e : Editor) (h : e.Inv) : e.move_up.Inv := by
  obtain ⟨hwf, hcur⟩ := h
  obtain ⟨hlt, heq, hle⟩ := (Editor.inv_iff' e hwf).mp hcur
  unfold Editor.move_up
  by_cases hg : 0 < e.cursor.line
  · rw [if_pos hg]
    dsimp only
    have hlt2 : e.cursor.line - 1 < (linesOf e.buffer).length := by omega
    obtain ⟨hstart, hend, hlen, htile⟩ := Editor.geom e hwf (e.cursor.line - 1) hlt2
    refine ⟨hwf, ⟨by dsimp only; have := Editor.lines_length e hwf; omega, ?_, ?_, ?_⟩⟩ <;> dsimp only <;>
      (try simp only [hend, hstart, hlen]) <;> omega
  · rw [if_neg hg]
    exact ⟨hwf, hcur⟩

theorem Editor.start_pos_inv (e : Editor) (hwf : e.Wf) (k : Nat)
    (hk : k < (linesOf e.buffer).length) (t : Token)
    (hmem : t ∈ (e.lines.getD k ⟨0, []⟩).tokens) :
    Editor.CursorInv { e with cursor := t.start_pos (e.lines.getD k ⟨0, []⟩) k } := by
  obtain ⟨hstart, hend, hlen, htile⟩ := Editor.geom e hwf k hk
  have hm := tile_mem htile hmem
  have hLL := Editor.lines_length e hwf
  unfold Token.start_pos
  refine ⟨?_, ?_, ?_, ?_⟩ <;> dsimp only <;> (try simp only [hstart, hend]) <;> omega

theorem Editor.end_pos_inv (e : Editor) (hwf : e.Wf) (k : Nat)
    (hk : k < (linesOf e.buffer).length) (t : Token)
    (hmem : t ∈ (e.lines.getD k ⟨0, []⟩).tokens) :
    Editor.CursorInv { e with cursor := t.end_pos (e.lines.getD k ⟨0, []⟩) k } := by
  obtain ⟨hstart, hend, hlen, htile⟩ := Editor.geom e hwf k hk
  have hm := tile_mem htile hmem
  have hLL := Editor.lines_length e hwf
  unfold Token.end_pos
  refine ⟨?_, ?_, ?_, ?_⟩ <;> dsimp only <;> (try simp only [hstart, hend]) <;> omega

theorem Editor.next_line_some (e : Editor) {l : Line} (h : e.next_line = some l) :
    l = e.lines.getD (e.cursor.line + 1) ⟨0, []⟩ ∧ e.cursor.line + 1 < e.lines.length := by
  unfold Editor.next_line at h
  by_cases hg : e.cursor.line + 1 < e.lines.length
  · rw [if_pos hg] at h
    exact ⟨(Option.some.injEq _ _ ▸ h).symm, hg⟩
  · rw [if_neg hg] at h
    exact absurd h (by simp)

theorem Editor.prev_line_some (e : Editor) {l : Line} (h : e.prev_line = some l) :
    l = e.lines.getD (e.cursor.line - 1) ⟨0, []⟩ ∧ 0 < e.cursor.line := by
  unfold Editor.prev_line at h
  by_cases hg : 0 < e.cursor.line
  · rw [if_pos hg] at h
    exact ⟨(Option.some.injEq _ _ ▸ h).symm, hg⟩
  · rw [if_neg hg] at h
    exact absurd h (by simp)

theorem Editor.next_word_inv (e : Editor) (h : e.Inv) : e.next_word.Inv := by
  obtain ⟨hwf, hcur⟩ := h
  obtain ⟨hlt, heq, hle⟩ := (Editor.inv_iff' e hwf).mp hcur
  unfold Editor.next_word
  dsimp only
  cases hnw : (e.lines.getD e.cursor.line ⟨0, []⟩).next_word e.cursor.idx with
  | some t =>
    simp only [Option.map_some']
    show Editor.Inv
      { e with cursor := t.start_pos (e.lines.getD e.cursor.line ⟨0, []⟩) e.cursor.line }
    unfold Line.next_word at hnw
    exact ⟨hwf, Editor.start_pos_inv e hwf e.cursor.line hlt t (List.mem_of_find?_eq_some hnw)⟩
  | none =>
    simp only [Option.map_none']
    cases hnl : e.next_line with
    | some l =>
      obtain ⟨hleq, hglt⟩ := Editor.next_line_some e hnl
      dsimp only
      cases hh : l.tokens.head? with
      | some t =>
        simp only [Option.map_some']
        show Editor.Inv { e with cursor := t.start_pos l (e.cursor.line + 1) }
        subst hleq
        rw [Editor.lines_length e hwf] at hglt
        exact ⟨hwf, Editor.start_pos_inv e hwf (e.cursor.line + 1) hglt t
          (List.mem_of_mem_head? (Option.mem_def.mpr hh))⟩
      | none =>
        simp only [Option.map_none']
        exact Editor.move_down_inv e ⟨hwf, hcur⟩
    | none =>
      exact Editor.move_down_inv e ⟨hwf, hcur⟩

theorem Editor.nwend_fallback_inv (e : Editor) (hwf : e.Wf) (hcur : e.CursorInv) :
    Editor.Inv (match
      (match ((e.lines.getD e.cursor.line ⟨0, []⟩).next_word e.cursor.idx).map
        (fun t => t.end_pos (e.lines.getD e.cursor.line ⟨0, []⟩) e.cursor.line) with
      | some p => some p
      | none =>
        match e.next_line with
        | some l => l.tokens.head?.map fun t => t.end_pos l (e.cursor.line + 1)
        | none => none) with
    | some p => { e with cursor := p }
    | none => e.move_down) := by
  obtain ⟨hlt, heq, hle⟩ := (Editor.inv_iff' e hwf).mp hcur
  cases hnw : (e.lines.getD e.cursor.line ⟨0, []⟩).next_word e.cursor.idx with
  | some t =>
    simp only [Option.map_some']
    show Editor.Inv
      { e with cursor := t.end_pos (e.lines.getD e.cursor.line ⟨0, []⟩) e.cursor.line }
    unfold Line.next_word at hnw
    exact ⟨hwf, Editor.end_pos_inv e hwf e.cursor.line hlt t (List.mem_of_find?_eq_some hnw)⟩
  | none =>
    simp only [Option.map_none']
    cases hnl : e.next_line with
    | some l =>
      obtain ⟨hleq, hglt⟩ := Editor.next_line_some e hnl
      dsimp only
      cases hh : l.tokens.head? with
      | some t =>
        simp only [Option.map_some']
        show Editor.Inv { e with cursor := t.end_pos l (e.cursor.line + 1) }
        subst hleq
        rw [Editor.lines_length e hwf] at hglt
        exact ⟨hwf, Editor.end_pos_inv e hwf (e.cursor.line + 1) hglt t
          (List.mem_of_mem_head? (Option.mem_def.mpr hh))⟩
      | none =>
        simp only [Option.map_none']
        exact Editor.move_down_inv e ⟨hwf, hcur⟩
    | none =>
      exact Editor.move_down_inv e ⟨hwf, hcur⟩

theorem Editor.next_word_end_inv (e : Editor) (h : e.Inv) : e.next_word_end.Inv := by
  obtain ⟨hwf, hcur⟩ := h
  obtain ⟨hlt, heq, hle⟩ := (Editor.inv_iff' e hwf).mp hcur
  unfold Editor.next_word_end
  dsimp only
  cases hcw : (e.lines.getD e.cursor.line ⟨0, []⟩).current_word e.cursor.idx with
  | some t =>
    dsimp only
    by_cases hf : e.cursor.idx + 1 < t.idx + t.len
    · rw [if_pos hf]
      dsimp only
      simp only [Option.map_some']
      show Editor.Inv
        { e with cursor := t.end_pos (e.lines.getD e.cursor.line ⟨0, []⟩) e.cursor.line }
      unfold Line.current_word at hcw
      exact ⟨hwf, Editor.end_pos_inv e hwf e.cursor.line hlt t (List.mem_of_find?_eq_some hcw)⟩
    · rw [if_neg hf]
      exact Editor.nwend_fallback_inv e hwf hcur
  | none =>
    exact Editor.nwend_fallback_inv e hwf hcur

theorem Editor.prev_word_fallback_inv (e : Editor) (hwf : e.Wf) (hcur : e.CursorInv) :
    Editor.Inv (match
      (match ((e.lines.getD e.cursor.line ⟨0, []⟩).prev_word e.cursor.idx).map
        (fun t => t.start_pos (e.lines.getD e.cursor.line ⟨0, []⟩) e.cursor.line) with
      | some p => some p
      | none =>
        match e.prev_line with
        | some l => l.tokens.getLast?.map fun t => t.start_pos l (e.cursor.line - 1)
        | none => none) with
    | some p => { e with cursor := p }
    | none => e.move_up) := by
  obtain ⟨hlt, heq, hle⟩ := (Editor.inv_iff' e hwf).mp hcur
  cases hnw : (e.lines.getD e.cursor.line ⟨0, []⟩).prev_word e.cursor.idx with
  | some t =>
    simp only [Option.map_some']
    show Editor.Inv
      { e with cursor := t.start_pos (e.lines.getD e.cursor.line ⟨0, []⟩) e.cursor.line }
    unfold Line.prev_word at hnw
    exact ⟨hwf, Editor.start_pos_inv e hwf e.cursor.line hlt t
      (List.mem_reverse.mp (List.mem_of_find?_eq_some hnw))⟩
  | none =>
    simp only [Option.map_none']
    cases hnl : e.prev_line with
    | some l =>
      obtain ⟨hleq, hglt⟩ := Editor.prev_line_some e hnl
      dsimp only
      cases hh : l.tokens.getLast? with
      | some t =>
        simp only [Option.map_some']
        show Editor.Inv { e with cursor := t.start_pos l (e.cursor.line - 1) }
        subst hleq
        have hl1 : e.cursor.line - 1 < e.lines.length := by
          have := Editor.lines_length e hwf
          omega
        rw [Editor.lines_length e hwf] at hl1
        obtain ⟨hne, hxeq⟩ := List.mem_getLast?_eq_getLast (Option.mem_def.mpr hh)
        exact ⟨hwf, Editor.start_pos_inv e hwf (e.cursor.line - 1) hl1 t
          (hxeq ▸ List.getLast_mem hne)⟩
      | none =>
        simp only [Option.map_none']
        exact Editor.move_up_inv e ⟨hwf, hcur⟩
    | none =>
      exact Editor.move_up_inv e ⟨hwf, hcur⟩

theorem Editor.prev_word_inv (e : Editor) (h : e.Inv) : e.prev_word.Inv := by
  obtain ⟨hwf, hcur⟩ := h
  obtain ⟨hlt, heq, hle⟩ := (Editor.inv_iff' e hwf).mp hcur
  unfold Editor.prev_word
  dsimp only
  cases hcw : (e.lines.getD e.cursor.line ⟨0, []⟩).current_word e.cursor.idx with
  | some t =>
    dsimp only
    by_cases hf : t.idx < e.cursor.idx
    · rw [if_pos hf]
      dsimp only
      simp only [Option.map_some']
      show Editor.Inv
        { e with cursor := t.start_pos (e.lines.getD e.cursor.line ⟨0, []⟩) e.cursor.line }
      unfold Line.current_word at hcw
      exact ⟨hwf, Editor.start_pos_inv e hwf e.cursor.line hlt t (List.mem_of_find?_eq_some hcw)⟩
    · rw [if_neg hf]
      exact Editor.prev_word_fallback_inv e hwf hcur
  | none =>
    exact Editor.prev_word_fallback_inv e hwf hcur

/-! ## Tokenization round-trip -/

theorem slice_join {buf : List Char} : ∀ {ts : List Token} {a b : Nat}, TokensTile a b ts →
    (ts.map fun t => (buf.drop t.idx).take t.len).flatten = (buf.drop a).take (b - a) := by
  intro ts
  induction ts with
  | nil =>
    intro a b h
    have : a = b := h
    subst this
    simp
  | cons t ts ih =>
    intro a b h
    obtain ⟨hidx, hlen, hrest⟩ := h
    have hab : a + t.len ≤ b := tile_le hrest
    simp only [List.map_cons, List.flatten_cons, ih hrest, hidx]
    have h1 : b - a = t.len + (b - (a + t.len)) := by omega
    rw [h1, List.take_add, List.drop_drop]

theorem map_lineText (e : Editor) : ∀ (segs : List (List Char)) (ls : List Line) (b : Nat),
    LinesFit b segs ls → e.buffer.drop b = joinNL segs →
    ls.map e.lineText = segs := by
  intro segs
  induction segs with
  | nil =>
    intro ls b hfit _
    cases ls with
    | nil => rfl
    | cons l ls => exact hfit.elim
  | cons seg segs ih =>
    intro ls b hfit hdrop
    cases ls with
    | nil => exact hfit.elim
    | cons l ls =>
      obtain ⟨hidx, htile, hrest⟩ := hfit
      have hl : e.lineText l = seg := by
        unfold Editor.lineText
        rw [slice_join htile]
        rw [show b + seg.length - b = seg.length from by omega, hdrop]
        cases segs with
        | nil => simp [joinNL]
        | cons s2 ss =>
          rw [joinNL_cons seg (by simp)]
          rw [take_append_le le_rfl, List.take_length]
      simp only [List.map_cons, hl]
      cases segs with
      | nil =>
        cases ls with
        | nil => rfl
        | cons l2 ls2 => exact hrest.elim
      | cons s2 ss =>
        have hdrop2 : e.buffer.drop (b + seg.length + 1) = joinNL (s2 :: ss) := by
          have h1 : e.buffer.drop (b + seg.length + 1) =
              (e.buffer.drop b).drop (seg.length + 1) := by
            rw [List.drop_drop]
            congr 1
          rw [h1, hdrop, joinNL_cons seg (by simp), List.drop_append]
          rfl
        rw [ih ls (b + seg.length + 1) hrest hdrop2]

theorem Editor.joined_eq (e : Editor) (hwf : e.Wf) : e.joined = e.buffer := by
  have hfit := tokenizeLines_fit e.buffer
  rw [← hwf] at hfit
  have hmap := map_lineText e (linesOf e.buffer) e.lines 0 hfit (by
    rw [List.drop_zero, joinNL_linesOf])
  unfold Editor.joined
  rw [hmap, joinNL_linesOf]

theorem Editor.insert_wf (e : Editor) (t : List Char) : (e.insert t).Wf := rfl

theorem Editor.new_line_wf (e : Editor) : e.new_line.Wf := rfl

theorem Editor.delete_wf (e : Editor) (h : e.Wf) : e.delete.Wf := by
  unfold Editor.delete
  dsimp only
  split
  · exact Editor.tokenize_wf _
  · exact h

theorem Editor.delete_char_wf (e : Editor) (h : e.Wf) : e.delete_char.Wf := by
  unfold Editor.delete_char
  dsimp only
  split
  · exact Editor.tokenize_wf _
  · exact h

theorem Editor.applyEdits_wf : ∀ (ops : List EditOp) (e : Editor), e.Wf →
    (e.applyEdits ops).Wf := by
  intro ops
  induction ops with
  | nil => intro e h; exact h
  | cons op ops ih =>
    intro e h
    show ((e.applyEdit op).applyEdits ops).Wf
    refine ih _ ?_
    cases op with
    | ins t => exact e.insert_wf t
    | nl => exact e.new_line_wf
    | del => exact e.delete_wf h
    | delChar => exact e.delete_char_wf h

/-- C2: after any sequence of insert, new_line, delete and delete_char
operations from a fresh editor, concatenating every line's token texts and
joining the lines with single newlines reconstructs the buffer exactly. -/
theorem C2_tokenize_roundtrip (ops : List EditOp) :
    (Editor.new.applyEdits ops).joined = (Editor.new.applyEdits ops).buffer :=
  Editor.joined_eq _ (Editor.applyEdits_wf ops Editor.new rfl)

/-- C9: `delete` (backspace) is a no-op when the cursor is at buffer start
(`idx = 0`); otherwise it removes the character immediately before the
cursor and the cursor moves left one column, or — if the column was
already 0 — jumps to the end of the previous line (its line index drops
by one and its column becomes that line's full length). -/
theorem C9_backspace (e : Editor) (h : e.Inv) :
    (e.cursor.idx = 0 → e.delete = e) ∧
    (0 < e.cursor.idx →
      e.delete.buffer = e.buffer.eraseIdx (e.cursor.idx - 1) ∧
      e.delete.cursor.idx = e.cursor.idx - 1 ∧
      (0 < e.cursor.col →
        e.delete.cursor.line = e.cursor.line ∧
        e.delete.cursor.col = e.cursor.col - 1) ∧
      (e.cursor.col = 0 →
        e.delete.cursor.line = e.cursor.line - 1 ∧
        e.delete.cursor.col = ((linesOf e.buffer).getD (e.cursor.line - 1) []).length)) := by
  obtain ⟨hwf, hcur⟩ := h
  obtain ⟨hlt, heq, hle⟩ := (Editor.inv_iff e hwf).mp hcur
  constructor
  · intro h0
    unfold Editor.delete
    rw [if_neg (by omega)]
  · intro hpos
    have hweight := Editor.buffer_weight e
    have hendle := seg_end_le (linesOf e.buffer) e.cursor.line hlt
    have hguard : 0 < e.cursor.idx ∧ e.cursor.idx ≤ e.buffer.length := ⟨hpos, by omega⟩
    have hb : e.delete.buffer = e.buffer.eraseIdx (e.cursor.idx - 1) := by
      unfold Editor.delete
      rw [if_pos hguard]
      rfl
    by_cases hcol : 0 < e.cursor.col
    · have hc : e.delete.cursor =
          { e.cursor with idx := e.cursor.idx - 1, col := e.cursor.col - 1 } := by
        unfold Editor.delete
        rw [if_pos hguard]
        dsimp only
        rw [if_pos hcol]
        rfl
      rw [hb, hc]
      exact ⟨rfl, rfl, fun _ => ⟨rfl, rfl⟩, fun hc0 => absurd hc0 (by omega)⟩
    · have hline0 : 0 < e.cursor.line := by
        rcases Nat.eq_zero_or_pos e.cursor.line with h0 | h0
        · rw [h0] at heq
          have hz : segStart (linesOf e.buffer) 0 = 0 := rfl
          omega
        · exact h0
      have hc : e.delete.cursor =
          { idx := e.cursor.idx - 1
          , line := e.cursor.line - 1
          , col := e.line_len (e.lines.getD (e.cursor.line - 1) ⟨0, []⟩) } := by
        unfold Editor.delete
        rw [if_pos hguard]
        dsimp only
        rw [if_neg hcol, if_pos hline0]
        rfl
      have hprev := (Editor.geom e hwf (e.cursor.line - 1) (by omega)).2.2.1
      rw [hb, hc]
      exact ⟨rfl, rfl, fun hcc => absurd hcc (by omega), fun _ => ⟨rfl, hprev⟩⟩

theorem C9_witness :
    (Editor.new.insert ['a', 'b']).delete.buffer =
        (Editor.new.insert ['a', 'b']).buffer.eraseIdx 1 ∧
      (Editor.new.insert ['a', 'b']).delete.cursor.col = 1 :=
  ⟨((C9_backspace (Editor.new.insert ['a', 'b']) (by decide)).2 (by decide)).1,
   by
    have h := ((C9_backspace (Editor.new.insert ['a', 'b']) (by decide)).2
      (by decide)).2.2.1 (by decide)
    exact h.2⟩

theorem take_succ_getD {α : Type} : ∀ (l : List α) (k : Nat) (d : α), k < l.length →
    l.take (k + 1) = l.take k ++ [l.getD k d] := by
  intro l
  induction l with
  | nil => intro k d hk; simp at hk
  | cons a as ih =>
    intro k d hk
    cases k with
    | zero => simp
    | succ k =>
      have hk' : k < as.length := by simpa using hk
      simp only [List.take_succ_cons, List.getD_cons_succ]
      rw [ih k d hk']
      rfl

/-- The deletion loop of `delete_line` removes one contiguous span: `n`
repeated removals at the fixed offset `q` equal cutting `[q, q + n)` out of
the buffer (with the out-of-range removals skipped by the loop's guard
matching `drop`'s clamping). -/
theorem removeTimes_eq : ∀ (n q : Nat) (buf : List Char),
    removeTimes n q buf = buf.take q ++ buf.drop (q + n) := by
  intro n
  induction n with
  | zero =>
    intro q buf
    show buf = buf.take q ++ buf.drop (q + 0)
    rw [Nat.add_zero, List.take_append_drop]
  | succ n ih =>
    intro q buf
    show removeTimes n q (if q < buf.length then buf.eraseIdx q else buf) = _
    by_cases hq : q < buf.length
    · rw [if_pos hq, ih, List.eraseIdx_eq_take_drop_succ]
      have hlenA : (buf.take q).length = q := by
        rw [List.length_take]
        omega
      have htake : (buf.take q ++ buf.drop (q + 1)).take q = buf.take q := by
        rw [take_append_le (by omega), List.take_take]
        rw [Nat.min_self]
      have hdrop : (buf.take q ++ buf.drop (q + 1)).drop (q + n) =
          buf.drop (q + (n + 1)) := by
        rw [show q + n = (buf.take q).length + n from by omega, List.drop_append,
          List.drop_drop, show q + 1 + n = q + (n + 1) from by omega]
      rw [htake, hdrop]
    · rw [if_neg hq, ih]
      have h1 : buf.drop (q + n) = [] := List.drop_eq_nil_of_le (by omega)
      have h2 : buf.drop (q + (n + 1)) = [] := List.drop_eq_nil_of_le (by omega)
      rw [h1, h2]

/-- Cutting the span `[q, q + len + 1)` out of the joined segments, where
`q` sits on the newline before segment `L` (or at offset 0 for the first
segment) and `len` is segment `L`'s length, yields exactly the join of the
remaining segments. -/
theorem joinNL_delete_span : ∀ (segs : List (List Char)) (L : Nat), L < segs.length →
    (joinNL segs).take (if L = 0 then 0 else segStart segs L - 1) ++
      (joinNL segs).drop ((if L = 0 then 0 else segStart segs L - 1) +
        ((segs.getD L []).length + 1)) =
      joinNL (segs.eraseIdx L) := by
  intro segs L hL
  cases L with
  | zero =>
    rw [if_pos rfl, List.take_zero, List.nil_append, Nat.zero_add]
    cases segs with
    | nil => simp at hL
    | cons s rest =>
      cases rest with
      | nil =>
        show (joinNL [s]).drop (s.length + 1) = joinNL []
        exact List.drop_eq_nil_of_le (by
          show (joinNL [s]).length ≤ s.length + 1
          rw [show joinNL [s] = s from rfl]
          omega)
      | cons t ts =>
        show (joinNL (s :: t :: ts)).drop (s.length + 1) = joinNL (t :: ts)
        rw [joinNL_cons s (by simp), List.drop_append]
        rfl
  | succ K =>
    have hK : K < segs.length := by omega
    have hss := segStart_succ segs K hK
    rw [if_neg (by omega : ¬ K + 1 = 0)]
    have htake : (joinNL segs).take (segStart segs (K + 1) - 1) =
        joinNL (segs.take (K + 1)) := by
      rw [show segStart segs (K + 1) - 1 = segStart segs K + (segs.getD K []).length from
        by omega]
      rw [joinNL_take segs K ((segs.getD K []).length) hK le_rfl, List.take_length,
        ← take_succ_getD segs K [] hK]
    have hdrop : (joinNL segs).drop
        (segStart segs (K + 1) - 1 + ((segs.getD (K + 1) []).length + 1)) =
        joinNL ([] :: segs.drop (K + 1 + 1)) := by
      rw [show segStart segs (K + 1) - 1 + ((segs.getD (K + 1) []).length + 1) =
          segStart segs (K + 1) + (segs.getD (K + 1) []).length from by omega]
      rw [joinNL_drop segs (K + 1) ((segs.getD (K + 1) []).length) hL le_rfl,
        List.drop_length]
    rw [htake, hdrop, List.eraseIdx_eq_take_drop_succ]
    cases hd : segs.drop (K + 1 + 1) with
    | nil =>
      rw [show joinNL [([] : List Char)] = [] from rfl, List.append_nil, List.append_nil]
    | cons z B =>
      rw [take_succ_getD segs K [] hK, joinNL_cons ([] : List Char) (by simp),
        List.nil_append, List.append_assoc, List.singleton_append]
      exact joinNL_split (segs.take K) (segs.getD K []) z B

/-- C3: `delete_line` removes the current line's text together with one
owning newline as a single contiguous span (starting one character before
the line, or at offset 0 for the first line), leaving exactly the buffer
with the current segment deleted; the cursor keeps its line index with the
column clamped to the length of the line that moved up, or, when the
deleted line was the last one, moves to the previous line with column (and
offset) zeroed.  This includes the first-line edge case. -/
theorem C3_delete_line (e : Editor) (hwf : e.Wf)
    (hL : e.cursor.line < (linesOf e.buffer).length) :
    (e.delete_line.buffer =
      e.buffer.take
          (if e.cursor.line = 0 then 0 else segStart (linesOf e.buffer) e.cursor.line - 1) ++
        e.buffer.drop
          ((if e.cursor.line = 0 then 0 else segStart (linesOf e.buffer) e.cursor.line - 1) +
            (((linesOf e.buffer).getD e.cursor.line []).length + 1))) ∧
    e.delete_line.buffer = joinNL ((linesOf e.buffer).eraseIdx e.cursor.line) ∧
    (e.cursor.line + 1 < (linesOf e.buffer).length →
      e.delete_line.cursor.line = e.cursor.line ∧
      e.delete_line.cursor.col =
        min ((linesOf e.buffer).getD (e.cursor.line + 1) []).length e.cursor.col) ∧
    (e.cursor.line + 1 = (linesOf e.buffer).length →
      e.delete_line.cursor.line = e.cursor.line - 1 ∧
      e.delete_line.cursor.col = 0 ∧ e.delete_line.cursor.idx = 0) := by
  have hstart := (Editor.geom e hwf e.cursor.line hL).1
  have hend := (Editor.geom e hwf e.cursor.line hL).2.1
  have hq : max (e.lines.getD e.cursor.line ⟨0, []⟩).start 1 - 1 =
      (if e.cursor.line = 0 then 0
       else segStart (linesOf e.buffer) e.cursor.line - 1) := by
    by_cases h0 : e.cursor.line = 0
    · rw [if_pos h0, hstart, h0, segStart_zero]
      omega
    · rw [if_neg h0, hstart]
      have hK : e.cursor.line - 1 < (linesOf e.buffer).length := by omega
      have hss := segStart_succ (linesOf e.buffer) (e.cursor.line - 1) hK
      rw [show e.cursor.line - 1 + 1 = e.cursor.line from by omega] at hss
      omega
  have hlen : (e.lines.getD e.cursor.line ⟨0, []⟩).end' -
      (e.lines.getD e.cursor.line ⟨0, []⟩).start + 1 =
      ((linesOf e.buffer).getD e.cursor.line []).length + 1 := by omega
  have hbuf' : e.delete_line.buffer =
      removeTimes
        ((e.lines.getD e.cursor.line ⟨0, []⟩).end' -
          (e.lines.getD e.cursor.line ⟨0, []⟩).start + 1)
        (max (e.lines.getD e.cursor.line ⟨0, []⟩).start 1 - 1) e.buffer := rfl
  have hfirst : e.delete_line.buffer =
      e.buffer.take
          (if e.cursor.line = 0 then 0 else segStart (linesOf e.buffer) e.cursor.line - 1) ++
        e.buffer.drop
          ((if e.cursor.line = 0 then 0 else segStart (linesOf e.buffer) e.cursor.line - 1) +
            (((linesOf e.buffer).getD e.cursor.line []).length + 1)) := by
    rw [hbuf', removeTimes_eq, hq, hlen]
  have hmain := joinNL_delete_span (linesOf e.buffer) e.cursor.line hL
  rw [joinNL_linesOf] at hmain
  have hcur' : e.delete_line.cursor =
      (match e.next_line with
       | some nl => { e.cursor with col := min (nl.end' - nl.start) e.cursor.col }
       | none =>
         { idx := 0
         , line := if 0 < e.cursor.line then e.cursor.line - 1 else e.cursor.line
         , col := 0 }) := rfl
  refine ⟨hfirst, hfirst.trans hmain, ?_, ?_⟩
  · intro hlt1
    have hnl : e.next_line = some (e.lines.getD (e.cursor.line + 1) ⟨0, []⟩) := by
      unfold Editor.next_line
      rw [if_pos]
      rw [Editor.lines_length e hwf]
      exact hlt1
    have hc2 : e.delete_line.cursor =
        { e.cursor with
          col := min ((e.lines.getD (e.cursor.line + 1) ⟨0, []⟩).end' -
            (e.lines.getD (e.cursor.line + 1) ⟨0, []⟩).start) e.cursor.col } := by
      rw [hcur', hnl]
    have hstart1 := (Editor.geom e hwf (e.cursor.line + 1) hlt1).1
    have hend1 := (Editor.geom e hwf (e.cursor.line + 1) hlt1).2.1
    have hspan : (e.lines.getD (e.cursor.line + 1) ⟨0, []⟩).end' -
        (e.lines.getD (e.cursor.line + 1) ⟨0, []⟩).start =
        ((linesOf e.buffer).getD (e.cursor.line + 1) []).length := by omega
    rw [hc2]
    exact ⟨rfl, by rw [show ({ e.cursor with
      col := min ((e.lines.getD (e.cursor.line + 1) ⟨0, []⟩).end' -
        (e.lines.getD (e.cursor.line + 1) ⟨0, []⟩).start) e.cursor.col } : Pos).col =
      min ((e.lines.getD (e.cursor.line + 1) ⟨0, []⟩).end' -
        (e.lines.getD (e.cursor.line + 1) ⟨0, []⟩).start) e.cursor.col from rfl, hspan]⟩
  · intro hlast
    have hnl : e.next_line = none := by
      unfold Editor.next_line
      rw [if_neg]
      rw [Editor.lines_length e hwf]
      omega
    have hc2 : e.delete_line.cursor =
        { idx := 0
        , line := if 0 < e.cursor.line then e.cursor.line - 1 else e.cursor.line
        , col := 0 } := by
      rw [hcur', hnl]
    rw [hc2]
    refine ⟨?_, rfl, rfl⟩
    show (if 0 < e.cursor.line then e.cursor.line - 1 else e.cursor.line) =
      e.cursor.line - 1
    split <;> omega

theorem C3_witness :
    (Editor.new.insert "ab\ncd".toList).delete_line.buffer =
        joinNL ((linesOf (Editor.new.insert "ab\ncd".toList).buffer).eraseIdx
          (Editor.new.insert "ab\ncd".toList).cursor.line) ∧
      (Editor.new.insert "ab\ncd".toList).delete_line.cursor.col =
        min ((linesOf (Editor.new.insert "ab\ncd".toList).buffer).getD
            ((Editor.new.insert "ab\ncd".toList).cursor.line + 1) []).length
          (Editor.new.insert "ab\ncd".toList).cursor.col :=
  ⟨(C3_delete_line (Editor.new.insert "ab\ncd".toList) rfl (by decide)).2.1,
   ((C3_delete_line (Editor.new.insert "ab\ncd".toList) rfl (by decide)).2.2.1
      (by decide)).2⟩

/-- C1 counterexample: `insert` with a newline character breaks the cursor
invariant (the cursor's column advances past the end of its line, which now
ends at the inserted newline), and `delete_line` breaks it from a reachable
invariant-satisfying state (its column clamp updates `col` without updating
`idx`, so `start + col = idx` fails). -/
theorem C1_counterexample :
    ¬ (Editor.new.insert ['\n']).CursorInv ∧
      ((((Editor.new.insert "abc".toList).new_line).insert
          "d".toList).move_up.move_right.Inv ∧
        ¬ (((Editor.new.insert "abc".toList).new_line).insert
          "d".toList).move_up.move_right.delete_line.CursorInv) := by
  decide

/-- C1 (amended): the initial editor satisfies the cursor invariant, and
every motion and edit operation except `delete_line` preserves it —
`insert` for newline-free text, `new_line`, `delete`, `delete_char`, all
six cursor moves, and the three word motions.  (`insert` of text containing
a newline and `delete_line` can break the invariant, as witnessed by the
counterexample.) -/
theorem C1_cursor_invariant :
    Editor.new.Inv ∧
    ∀ e : Editor, e.Inv →
      ((∀ t, NoNL t → (e.insert t).Inv) ∧
       e.new_line.Inv ∧
       e.delete.Inv ∧
       e.delete_char.Inv ∧
       e.move_left.Inv ∧
       e.move_right.Inv ∧
       e.move_up.Inv ∧
       e.move_down.Inv ∧
       e.move_start_of_line.Inv ∧
       e.move_end_of_line.Inv ∧
       e.next_word.Inv ∧
       e.next_word_end.Inv ∧
       e.prev_word.Inv) := by
  refine ⟨by decide, fun e h => ?_⟩
  exact ⟨fun t ht => Editor.insert_inv e t ht h,
    Editor.new_line_inv e h,
    Editor.delete_inv e h,
    Editor.delete_char_inv e h,
    Editor.move_left_inv e h,
    Editor.move_right_inv e h,
    Editor.move_up_inv e h,
    Editor.move_down_inv e h,
    Editor.move_start_of_line_inv e h,
    Editor.move_end_of_line_inv e h,
    Editor.next_word_inv e h,
    Editor.next_word_end_inv e h,
    Editor.prev_word_inv e h⟩

theorem C1_witness :
    ((Editor.new.insert ['h', 'i']).insert ['x']).Inv ∧
      (Editor.new.insert ['h', 'i']).new_line.Inv :=
  ⟨(C1_cursor_invariant.2 (Editor.new.insert ['h', 'i']) (by decide)).1 ['x']
      (by intro c hc; simp only [List.mem_singleton] at hc; rw [hc]; decide),
   (C1_cursor_invariant.2 (Editor.new.insert ['h', 'i']) (by decide)).2.1⟩

/-! ## Mode transitions (C7) -/

theorem from_input_go_full_inv : ∀ (cmds acc : List Command) (input : List Char)
    (c : Command), from_input_go input cmds acc = CommandMatch.FullMatch c →
    c ∈ cmds ∧ c.input = input := by
  intro cmds
  induction cmds with
  | nil =>
    intro acc input c h
    unfold from_input_go at h
    split at h <;> simp at h
  | cons cmd rest ih =>
    intro acc input c h
    unfold from_input_go at h
    by_cases h1 : cmd.input = input
    · rw [if_pos h1] at h
      injection h with hc
      subst hc
      exact ⟨List.mem_cons_self _ _, h1⟩
    · rw [if_neg h1] at h
      by_cases h2 : starts_with cmd.input input = true
      · rw [if_pos h2] at h
        obtain ⟨hm, hi⟩ := ih (cmd :: acc) input c h
        exact ⟨List.mem_cons_of_mem _ hm, hi⟩
      · rw [if_neg h2] at h
        obtain ⟨hm, hi⟩ := ih acc input c h
        exact ⟨List.mem_cons_of_mem _ hm, hi⟩

theorem from_input_full_inv {chunk : List Char} {c : Command}
    (h : Command.from_input chunk = CommandMatch.FullMatch c) :
    c ∈ ALL_COMMANDS ∧ c.input = chunk :=
  from_input_go_full_inv ALL_COMMANDS [] chunk c h

theorem Editor.move_left_mode (e : Editor) : e.move_left.mode = e.mode := rfl

theorem Editor.move_right_mode (e : Editor) : e.move_right.mode = e.mode := by
  unfold Editor.move_right
  split <;> rfl

theorem Editor.move_up_mode (e : Editor) : e.move_up.mode = e.mode := by
  unfold Editor.move_up
  split <;> rfl

theorem Editor.move_down_mode (e : Editor) : e.move_down.mode = e.mode := by
  unfold Editor.move_down
  split <;> rfl

theorem Editor.move_start_of_line_mode (e : Editor) :
    e.move_start_of_line.mode = e.mode := rfl

theorem Editor.move_end_of_line_mode (e : Editor) :
    e.move_end_of_line.mode = e.mode := rfl

theorem Editor.next_word_mode (e : Editor) : e.next_word.mode = e.mode := by
  unfold Editor.next_word
  dsimp only
  split
  · rfl
  · exact Editor.move_down_mode e

theorem Editor.next_word_end_mode (e : Editor) : e.next_word_end.mode = e.mode := by
  unfold Editor.next_word_end
  dsimp only
  split
  · rfl
  · exact Editor.move_down_mode e

theorem Editor.prev_word_mode (e : Editor) : e.prev_word.mode = e.mode := by
  unfold Editor.prev_word
  dsimp only
  split
  · rfl
  · exact Editor.move_up_mode e

theorem Editor.delete_line_mode (e : Editor) : e.delete_line.mode = e.mode := rfl

theorem Editor.delete_char_mode (e : Editor) : e.delete_char.mode = e.mode := by
  unfold Editor.delete_char
  dsimp only
  split <;> rfl

theorem Editor.enter_insert_mode (e : Editor) (h : e.mode = Mode.Normal) :
    e.enter_insert.mode = Mode.Insert := by
  unfold Editor.enter_insert
  rw [if_pos h]

theorem Editor.enter_insert_after_mode (e : Editor) (h : e.mode = Mode.Normal) :
    e.enter_insert_after.mode = Mode.Insert := by
  unfold Editor.enter_insert_after
  rw [if_pos h]

theorem Editor.start_next_line_mode (e : Editor) (h : e.mode = Mode.Normal) :
    e.start_next_line.mode = Mode.Insert := by
  unfold Editor.start_next_line
  exact Editor.enter_insert_mode _ h

theorem Editor.start_prev_line_mode (e : Editor) (h : e.mode = Mode.Normal) :
    e.start_prev_line.mode = Mode.Insert := by
  unfold Editor.start_prev_line
  exact Editor.enter_insert_mode _ h

theorem Editor.append_line_mode (e : Editor) (h : e.mode = Mode.Normal) :
    e.append_line.mode = Mode.Insert := by
  unfold Editor.append_line
  exact Editor.enter_insert_mode _ h

theorem Editor.prepend_line_mode (e : Editor) (h : e.mode = Mode.Normal) :
    e.prepend_line.mode = Mode.Insert := by
  unfold Editor.prepend_line
  exact Editor.enter_insert_mode _ h

theorem Editor.handle_normal_eq (e : Editor) (input : List Char) :
    e.handle_normal input =
      match e.input_buffer.check input with
      | (some a, ib) => (applyN a.cmd.action a.repeat' { e with input_buffer := ib }, true)
      | (none, ib) => ({ e with input_buffer := ib }, false) := by
  unfold Editor.handle_normal
  rcases h : e.input_buffer.check input with ⟨action, ib⟩
  cases action <;> rfl

theorem check_eq_cmd_of_none (ib : InputBuffer) (chunk : List Char)
    (hpu : parse_usize chunk = none) :
    ib.check chunk = ib.check_cmd chunk := by
  unfold InputBuffer.check
  rw [hpu]

theorem check_eq_cmd_of_zero (ib : InputBuffer) (chunk : List Char)
    (hpu : parse_usize chunk = some 0) (hrep : ib.repeat' = none) :
    ib.check chunk = ib.check_cmd chunk := by
  unfold InputBuffer.check
  rw [hpu]
  dsimp only
  rw [hrep, if_neg (by decide)]

theorem check_digits (ib : InputBuffer) (chunk : List Char) (m : Nat)
    (hpu : parse_usize chunk = some m) (hm : 0 < m) :
    ib.check chunk =
      (none,
        { ib with
          repeat' := some ((ib.repeat'.getD 0 *
            (if m = 0 then 10 else 10 ^ (log10f (toF32 m) + 1) % 2 ^ 64) + m) % 2 ^ 64),
          cd := ib.cd.reset CooldownState.Active }) := by
  unfold InputBuffer.check
  rw [hpu]
  dsimp only
  rw [if_pos (Or.inl hm)]

theorem check_full_key (ib : InputBuffer) (chunk : List Char) (c : Command)
    (hbuf : ib.buf = []) (hrep : ib.repeat' = none)
    (hpu : parse_usize chunk = none)
    (hfi : Command.from_input chunk = CommandMatch.FullMatch c) :
    ib.check chunk =
      (some { repeat' := 1, cmd := c.typ },
        InputBuffer.reset { ib with buf := chunk }) := by
  rw [check_eq_cmd_of_none ib chunk hpu, InputBuffer.check_cmd_eq, hbuf,
    List.nil_append, hfi]
  dsimp only
  rw [hrep]
  rfl

theorem dispatch_text_full (e : Editor) (chunk : List Char) (c : Command)
    (hm : e.mode = Mode.Normal)
    (hbuf : e.input_buffer.buf = []) (hrep : e.input_buffer.repeat' = none)
    (hpu : parse_usize chunk = none)
    (hfi : Command.from_input chunk = CommandMatch.FullMatch c) :
    e.dispatch (Event.text chunk) =
      c.typ.action
        { e with input_buffer := InputBuffer.reset { e.input_buffer with buf := chunk } } := by
  have h1 : e.dispatch (Event.text chunk) = (e.handle_normal chunk).1 := by
    unfold Editor.dispatch
    rw [hm]
  rw [h1, Editor.handle_normal_eq, check_full_key e.input_buffer chunk c hbuf hrep hpu hfi]
  rfl

theorem check_cmd_mode (e : Editor) (chunk : List Char)
    (hbuf : e.input_buffer.buf = []) (hrep : e.input_buffer.repeat' = none)
    (hnk : chunk ∉ [['i'], ['a'], ['A'], ['I'], ['o'], ['O'], [':']])
    (hck : e.input_buffer.check chunk = e.input_buffer.check_cmd chunk) :
    (e.handle_normal chunk).1.mode = e.mode := by
  rw [Editor.handle_normal_eq, hck, InputBuffer.check_cmd_eq, hbuf, List.nil_append]
  cases hfi : Command.from_input chunk with
  | PartialMatch cs => rfl
  | NoMatch => rfl
  | FullMatch c =>
    dsimp only
    rw [hrep]
    obtain ⟨hc, hci⟩ := from_input_full_inv hfi
    have happ : ∀ (f : Editor → Editor) (X : Editor),
        applyN f (Option.getD none 1) X = f X := fun f X => rfl
    fin_cases hc
    all_goals first
      | exact absurd (hci ▸ (by decide)) hnk
      | (rw [happ]; first
          | exact (Editor.move_left_mode _).trans rfl
          | exact (Editor.move_down_mode _).trans rfl
          | exact (Editor.move_right_mode _).trans rfl
          | exact (Editor.move_up_mode _).trans rfl
          | exact (Editor.move_end_of_line_mode _).trans rfl
          | exact (Editor.move_start_of_line_mode _).trans rfl
          | exact (Editor.next_word_mode _).trans rfl
          | exact (Editor.next_word_end_mode _).trans rfl
          | exact (Editor.prev_word_mode _).trans rfl
          | exact (Editor.delete_line_mode _).trans rfl
          | exact (Editor.delete_char_mode _).trans rfl)

/-- C7 counterexample: after ":" enters Command mode, dispatching the
ex-command (Enter) does not return the editor to Normal mode — the
`Command(cmd)` arm of `command_execute`'s match is an empty TODO, so the
mode stays `Command`. -/
theorem C7_counterexample :
    (Editor.new.dispatch (Event.text [':'])).mode = Mode.Command ∧
      ((Editor.new.dispatch (Event.text [':'])).dispatch Event.enter).mode =
        Mode.Command ∧
      ((Editor.new.dispatch (Event.text [':'])).command_execute).2.mode ≠
        Mode.Normal := by
  decide

/-- C7 (amended): the mode machine starts in Normal; from Normal (with an
empty pending literal and no count) the keys i, a, A, I, o, O switch to
Insert and ":" switches to Command, while every other Normal-mode chunk
leaves the mode Normal; Escape leaves Insert and Command for Normal; but —
unlike the claim — dispatching an ex-command (Enter in Command mode) does
NOT return to Normal: `command_execute` never resets the mode, so the
editor stays in Command.  All other mode/event combinations leave the mode
unchanged. -/
theorem C7_mode_machine :
    Editor.new.mode = Mode.Normal ∧
    (∀ e : Editor, e.mode = Mode.Normal → e.input_buffer.buf = [] →
        e.input_buffer.repeat' = none →
      ((e.dispatch (Event.text ['i'])).mode = Mode.Insert ∧
       (e.dispatch (Event.text ['a'])).mode = Mode.Insert ∧
       (e.dispatch (Event.text ['A'])).mode = Mode.Insert ∧
       (e.dispatch (Event.text ['I'])).mode = Mode.Insert ∧
       (e.dispatch (Event.text ['o'])).mode = Mode.Insert ∧
       (e.dispatch (Event.text ['O'])).mode = Mode.Insert ∧
       (e.dispatch (Event.text [':'])).mode = Mode.Command ∧
       (∀ chunk, chunk ∉ [['i'], ['a'], ['A'], ['I'], ['o'], ['O'], [':']] →
         (e.dispatch (Event.text chunk)).mode = Mode.Normal))) ∧
    (∀ e : Editor, e.mode = Mode.Insert →
      ((e.dispatch Event.escape).mode = Mode.Normal ∧
       (∀ chunk, (e.dispatch (Event.text chunk)).mode = Mode.Insert) ∧
       (e.dispatch Event.enter).mode = Mode.Insert)) ∧
    (∀ e : Editor, e.mode = Mode.Command →
      ((e.dispatch Event.escape).mode = Mode.Normal ∧
       (∀ chunk, (e.dispatch (Event.text chunk)).mode = Mode.Command) ∧
       (e.dispatch Event.enter).mode = Mode.Command)) ∧
    (∀ e : Editor, e.mode = Mode.Normal →
      ((e.dispatch Event.escape).mode = Mode.Normal ∧
       (e.dispatch Event.enter).mode = Mode.Normal)) := by
  refine ⟨rfl, ?_, ?_, ?_, ?_⟩
  · intro e hm hbuf hrep
    refine ⟨?_, ?_, ?_, ?_, ?_, ?_, ?_, ?_⟩
    · rw [dispatch_text_full e ['i'] ⟨"i".toList, CommandType.EnterInsert⟩ hm hbuf hrep
        (by decide) (by decide)]
      exact Editor.enter_insert_mode _ hm
    · rw [dispatch_text_full e ['a'] ⟨"a".toList, CommandType.EnterInsertAfter⟩ hm hbuf hrep
        (by decide) (by decide)]
      exact Editor.enter_insert_after_mode _ hm
    · rw [dispatch_text_full e ['A'] ⟨"A".toList, CommandType.AppendLine⟩ hm hbuf hrep
        (by decide) (by decide)]
      exact Editor.append_line_mode _ hm
    · rw [dispatch_text_full e ['I'] ⟨"I".toList, CommandType.PrependLine⟩ hm hbuf hrep
        (by decide) (by decide)]
      exact Editor.prepend_line_mode _ hm
    · rw [dispatch_text_full e ['o'] ⟨"o".toList, CommandType.StartNextLine⟩ hm hbuf hrep
        (by decide) (by decide)]
      exact Editor.start_next_line_mode _ hm
    · rw [dispatch_text_full e ['O'] ⟨"O".toList, CommandType.StartPrevLine⟩ hm hbuf hrep
        (by decide) (by decide)]
      exact Editor.start_prev_line_mode _ hm
    · rw [dispatch_text_full e [':'] ⟨":".toList, CommandType.EnterCommand⟩ hm hbuf hrep
        (by decide) (by decide)]
      rfl
    · intro chunk hnk
      have h1 : e.dispatch (Event.text chunk) = (e.handle_normal chunk).1 := by
        unfold Editor.dispatch
        rw [hm]
      rw [h1]
      cases hpu : parse_usize chunk with
      | none =>
        rw [check_cmd_mode e chunk hbuf hrep hnk
          (check_eq_cmd_of_none e.input_buffer chunk hpu)]
        exact hm
      | some m =>
        rcases Nat.eq_zero_or_pos m with rfl | hmp
        · rw [check_cmd_mode e chunk hbuf hrep hnk
            (check_eq_cmd_of_zero e.input_buffer chunk hpu hrep)]
          exact hm
        · rw [Editor.handle_normal_eq, check_digits e.input_buffer chunk m hpu hmp]
          exact hm
  · intro e hm
    refine ⟨?_, fun chunk => ?_, ?_⟩
    · have h1 : e.dispatch Event.escape = e.exit_insert := by
        unfold Editor.dispatch
        rw [hm]
      rw [h1]
      unfold Editor.exit_insert
      rw [if_pos hm]
    · have h1 : e.dispatch (Event.text chunk) = e.insert chunk := by
        unfold Editor.dispatch
        rw [hm]
      rw [h1]
      exact hm
    · have h1 : e.dispatch Event.enter = e.new_line := by
        unfold Editor.dispatch
        rw [hm]
      rw [h1]
      exact hm
  · intro e hm
    refine ⟨?_, fun chunk => ?_, ?_⟩
    · have h1 : e.dispatch Event.escape = e.exit_command := by
        unfold Editor.dispatch
        rw [hm]
      rw [h1]
      unfold Editor.exit_command
      rw [if_pos hm]
    · have h1 : e.dispatch (Event.text chunk) = e.handle_command chunk := by
        unfold Editor.dispatch
        rw [hm]
      rw [h1]
      exact hm
    · have h1 : e.dispatch Event.enter = (e.command_execute).2 := by
        unfold Editor.dispatch
        rw [hm]
      rw [h1]
      unfold Editor.command_execute
      rcases h2 : e.command_buffer.execute with ⟨r, cb⟩
      exact hm
  · intro e hm
    constructor
    · have h1 : e.dispatch Event.escape = e := by
        unfold Editor.dispatch
        rw [hm]
      rw [h1]
      exact hm
    · have h1 : e.dispatch Event.enter = e := by
        unfold Editor.dispatch
        rw [hm]
      rw [h1]
      exact hm

theorem C7_witness :
    (Editor.new.dispatch (Event.text ['i'])).mode = Mode.Insert ∧
      ((Editor.new.dispatch (Event.text ['i'])).dispatch Event.escape).mode =
        Mode.Normal ∧
      (Editor.new.dispatch (Event.text ['x', 'y'])).mode = Mode.Normal :=
  ⟨(C7_mode_machine.2.1 Editor.new rfl rfl rfl).1,
   (C7_mode_machine.2.2.1 (Editor.new.dispatch (Event.text ['i']))
      (C7_mode_machine.2.1 Editor.new rfl rfl rfl).1).1,
   (C7_mode_machine.2.1 Editor.new rfl rfl rfl).2.2.2.2.2.2.2 ['x', 'y'] (by decide)⟩
